import Mathlib

/-!
# konvertor: rate limiter, worker pool, retention sweeper, filename sanitization

A shallow embedding of `src/services/RateLimiter.{h,cc}`, of the constructor,
the worker loop and the sweeper loop of `src/services/ConversionManager.{h,cc}`
and of the filename sanitization in `src/controllers/ConverterController.cc`,
followed by the properties the specification states about them.

Conventions of the embedding:

* A `std::chrono::steady_clock::time_point` is an `Int` counting the clock's
  ticks (nanoseconds).  Every public call holds the limiter mutex for its whole
  body; the clock readings taken inside one call are identified and passed as
  the argument `now`.
* `std::unordered_map<std::string, RequestHistory>` is an association list.
  The operations below never create a second entry for a key, and the theorems
  that depend on key uniqueness assume `UniqueKeys`, which every reachable
  state satisfies.
* A member function that mutates the limiter returns the new map next to its
  C++ return value.
-/

namespace Konvertor

/-! ## RateLimiter: data model -/

/-- The struct `RateLimiter::RequestHistory`: admission times, oldest first.  A
time point is a reading of `std::chrono::steady_clock` in ticks. -/
structure RequestHistory where
  timestamps : List Int
deriving DecidableEq, Repr

/-- The member `const int MAX_REQUESTS_PER_WINDOW = 10`. -/
def MAX_REQUESTS_PER_WINDOW : Int := 10

/-- The member `const std::chrono::minutes TIME_WINDOW{60}`, converted to clock
ticks as `now - TIME_WINDOW` does. -/
def TIME_WINDOW : Int := 60 * 60 * 1000000000

/-- The member `ipHistory_`. -/
abbrev IpHistory := List (String × RequestHistory)

/-- Number of entries, `ipHistory_.size()`. -/
def mapSize (m : IpHistory) : Nat := m.length

/-- Lookup `ipHistory_.find(k)`: `none` stands for `end()`. -/
def mapFind : IpHistory → String → Option RequestHistory
  | [], _ => none
  | (k', h) :: rest, k => if k' = k then some h else mapFind rest k

/-- Subscript `ipHistory_[k]`: a missing key gets a default-constructed (empty)
history; an existing entry is left alone. -/
def mapSubscript (m : IpHistory) (k : String) : IpHistory :=
  match mapFind m k with
  | some _ => m
  | none => m ++ [(k, ⟨[]⟩)]

/-- A write through a reference to the node of key `k`: the node's value
becomes `h`.  A map without a node for `k` is not changed. -/
def mapAssign : IpHistory → String → RequestHistory → IpHistory
  | [], _, _ => []
  | (k', h') :: rest, k, h =>
    if k' = k then (k', h) :: mapAssign rest k h else (k', h') :: mapAssign rest k h

/-- The loop of `RateLimiter::cleanup`: pop the front while it is older than
the cutoff. -/
def popOld (cutoff : Int) : List Int → List Int
  | [] => []
  | t :: ts => if t < cutoff then popOld cutoff ts else t :: ts

/-- The function `RateLimiter::cleanup`. -/
def cleanup (now : Int) (history : RequestHistory) : RequestHistory :=
  let cutoff := now - TIME_WINDOW
  ⟨popOld cutoff history.timestamps⟩

/-- The function `RateLimiter::cleanupStaleEntries`: trim every entry and erase
the entries left empty. -/
def cleanupStaleEntries (now : Int) : IpHistory → IpHistory
  | [] => []
  | (k, h) :: rest =>
    let h' := cleanup now h
    if h'.timestamps.isEmpty then cleanupStaleEntries now rest
    else (k, h') :: cleanupStaleEntries now rest

/-- The function `RateLimiter::isAllowed`, as a build runs it in which freed
storage still reads as it was left.

`history` is a reference into the map.  When the compaction pass erases the
node it refers to, the reference dangles, and the size test and the `push_back`
that follow are a use after free: C++ gives such a call no defined behaviour
(see `isAllowedDefined`, which is `none` there).  For such a call this function
gives what the build above does: the size test reads the (empty) sequence the
node held when it was destroyed, and the `push_back` lands in storage the map
no longer owns, so the map is not changed by it.  For every other call the two
functions agree (`isAllowedDefined_eq`). -/
def isAllowed (ipAddress : String) (now : Int) (ipHistory : IpHistory) :
    Bool × IpHistory :=
  -- auto& history = ipHistory_[ipAddress];
  let m1 := mapSubscript ipHistory ipAddress
  -- cleanup(history);
  let trimmed := cleanup now ((mapFind m1 ipAddress).getD ⟨[]⟩)
  let m2 := mapAssign m1 ipAddress trimmed
  -- if (ipHistory_.size() > 1000) cleanupStaleEntries();
  let m3 := if mapSize m2 > 1000 then cleanupStaleEntries now m2 else m2
  -- what the reference reads now
  let history := (mapFind m3 ipAddress).getD trimmed
  if (history.timestamps.length : Int) ≥ MAX_REQUESTS_PER_WINDOW then
    (false, m3)
  else
    -- history.timestamps.push_back(now);
    (true, mapAssign m3 ipAddress ⟨history.timestamps ++ [now]⟩)

/-- The function `RateLimiter::isAllowed` with the lifetime of the node made
explicit: `none` when the compaction pass has erased the node `history` refers
to, so that the size test (line 26) and the `push_back` (line 33) go through a
dangling reference and the call has no defined behaviour. -/
def isAllowedDefined (ipAddress : String) (now : Int) (ipHistory : IpHistory) :
    Option (Bool × IpHistory) :=
  -- auto& history = ipHistory_[ipAddress];
  let m1 := mapSubscript ipHistory ipAddress
  -- cleanup(history);
  let trimmed := cleanup now ((mapFind m1 ipAddress).getD ⟨[]⟩)
  let m2 := mapAssign m1 ipAddress trimmed
  -- if (ipHistory_.size() > 1000) cleanupStaleEntries();
  let m3 := if mapSize m2 > 1000 then cleanupStaleEntries now m2 else m2
  -- the node `history` refers to, if it is still in the map
  match mapFind m3 ipAddress with
  | none => none
  | some history =>
    if (history.timestamps.length : Int) ≥ MAX_REQUESTS_PER_WINDOW then
      some (false, m3)
    else
      -- history.timestamps.push_back(now);
      some (true, mapAssign m3 ipAddress ⟨history.timestamps ++ [now]⟩)

/-- The function `RateLimiter::getRemainingRequests`.  The sequences hold at
most `MAX_REQUESTS_PER_WINDOW` elements, so the cast of the size to `int` is
exact. -/
def getRemainingRequests (ipAddress : String) (now : Int) (ipHistory : IpHistory) :
    Int × IpHistory :=
  match mapFind ipHistory ipAddress with
  | none => (MAX_REQUESTS_PER_WINDOW, ipHistory)
  | some h =>
    let h' := cleanup now h
    (MAX_REQUESTS_PER_WINDOW - (h'.timestamps.length : Int), mapAssign ipHistory ipAddress h')

/-- The history the reference `ipHistory_[k]` refers to right after the
subscript: the stored one, or the empty one just created. -/
def histOf (m : IpHistory) (k : String) : RequestHistory :=
  (mapFind m k).getD ⟨[]⟩

/-- The keys held by the map, in list order. -/
def keys (m : IpHistory) : List String := m.map Prod.fst

/-- The representation invariant of `std::unordered_map`: one node per key. -/
def UniqueKeys (m : IpHistory) : Prop := (keys m).Nodup

instance (m : IpHistory) : Decidable (UniqueKeys m) := by
  unfold UniqueKeys; infer_instance

/-! ## RateLimiter: derived notions -/

/-- What the compaction pass leaves of one history: the trimmed history, or
nothing when the trim emptied it. -/
def compactEntry (now : Int) (h : RequestHistory) : Option RequestHistory :=
  if (cleanup now h).timestamps.isEmpty then none else some (cleanup now h)

/-- The trimmed history of the key: what `cleanup(history)` leaves. -/
def trimmedOf (m : IpHistory) (k : String) (now : Int) : RequestHistory :=
  cleanup now (histOf m k)

/-- The map after the subscript, the trim and the conditional compaction pass of
`isAllowed`, before the admission decision. -/
def afterCompaction (m : IpHistory) (k : String) (now : Int) : IpHistory :=
  let m2 := mapAssign (mapSubscript m k) k (trimmedOf m k now)
  if mapSize m2 > 1000 then cleanupStaleEntries now m2 else m2

/-- The call `isAllowed(k)` on map `m` runs the compaction pass: more than 1000
keys are held once the key's node exists. -/
def Compacts (m : IpHistory) (k : String) : Prop := mapSize (mapSubscript m k) > 1000

instance (m : IpHistory) (k : String) : Decidable (Compacts m k) := by
  unfold Compacts; infer_instance

/-- The limiter states reachable from the empty limiter by `isAllowed` and
`getRemainingRequests` calls under a non-decreasing clock; the second index is
the latest clock reading. -/
inductive Reachable : IpHistory → Int → Prop
  | init (t : Int) : Reachable [] t
  | allowed {m : IpHistory} {t : Int} (k : String) (now : Int) :
      Reachable m t → t ≤ now → Reachable (isAllowed k now m).2 now
  | remaining {m : IpHistory} {t : Int} (k : String) (now : Int) :
      Reachable m t → t ≤ now → Reachable (getRemainingRequests k now m).2 now

/-- A stored history is time-ordered, holds no reading later than the clock `t`
and holds at most ten readings. -/
def GoodHistory (t : Int) (h : RequestHistory) : Prop :=
  h.timestamps.Pairwise (· ≤ ·) ∧ (∀ x ∈ h.timestamps, x ≤ t) ∧ h.timestamps.length ≤ 10

/-- The invariant of the reachable states. -/
def Inv (m : IpHistory) (t : Int) : Prop :=
  UniqueKeys m ∧ ∀ e ∈ m, GoodHistory t e.2

/-- Consecutive `isAllowed(k)` calls at the given clock readings: the results
in call order, and the final map. -/
def runAllowed (k : String) : List Int → IpHistory → List Bool × IpHistory
  | [], m => ([], m)
  | t :: ts, m =>
    let r := isAllowed k t m
    let rest := runAllowed k ts r.2
    (r.1 :: rest.1, rest.2)

/-- A call of one of the two public functions of the limiter, with its clock
reading. -/
inductive LimiterCall
  | isAllowed (ipAddress : String) (now : Int)
  | getRemainingRequests (ipAddress : String) (now : Int)
deriving DecidableEq, Repr

/-- A sequence of calls on the limiter: the map after the last call, `none`
as soon as one call has no defined behaviour. -/
def runCalls : List LimiterCall → IpHistory → Option IpHistory
  | [], m => some m
  | .isAllowed ipAddress now :: rest, m =>
    match isAllowedDefined ipAddress now m with
    | none => none
    | some r => runCalls rest r.2
  | .getRemainingRequests ipAddress now :: rest, m =>
    runCalls rest (getRemainingRequests ipAddress now m).2

/-- The `i`-th client key of the busy limiter. -/
def busyKey (i : Nat) : String := String.mk (List.replicate (i + 1) 'a')

/-- The limiter after one admission at clock reading 0 for each of the first
`n` client keys. -/
def busyUpTo (n : Nat) : IpHistory :=
  (List.range n).map (fun i => (busyKey i, (⟨[0]⟩ : RequestHistory)))

/-- A limiter holding 1000 keys, each with one admission at clock reading 0. -/
def busyLimiter : IpHistory := busyUpTo 1000

/-- One `isAllowed` call at clock reading 0 for each of the first `n` client
keys. -/
def busyCalls (n : Nat) : List LimiterCall :=
  (List.range n).map (fun i => .isAllowed (busyKey i) 0)

/-- What a caller observes around one `isAllowed` call: the value of
`getRemainingRequests` before it, its result, and the value of
`getRemainingRequests` after it. -/
structure Observation where
  before : Int
  admitted : Bool
  after : Int
deriving DecidableEq, Repr

/-- A sequence of `isAllowed(k)` calls, each bracketed by two
`getRemainingRequests(k)` calls.  A call is given by the three clock readings
(before, call, after). -/
def observeCalls (k : String) : List (Int × Int × Int) → IpHistory → List Observation
  | [], _ => []
  | (tb, tc, ta) :: rest, m =>
    let b := getRemainingRequests k tb m
    let r := isAllowed k tc b.2
    let a := getRemainingRequests k ta r.2
    ⟨b.1, r.1, a.1⟩ :: observeCalls k rest a.2

/-- The limiter after ten calls for one client, all at clock reading 0. -/
def exhaustedLimiter : IpHistory :=
  (runAllowed "10.0.0.1" (List.replicate 10 0) []).2

/-! ## ConversionManager: process execution

The part of `ConversionManager::workerThread` that runs one task: `fork`, in
the child `execvp` (and `exit(1)` when it returns), in the parent `waitpid` and
the decoding of the wait status.  The operating system is the environment: it
decides whether `fork` succeeds and how the child ends.  When `waitpid`
returns it is taken to have stored the child's wait status, encoded as Linux
does: the exit status in bits 8 to 15, the terminating signal in bits 0 to 6,
the core-dump flag in bit 7. -/

/-- How a child process ends, as `waitpid` reports it. -/
inductive ChildFate
  /-- The child exited normally with this exit status. -/
  | exited (status : Nat)
  /-- The child was terminated by this signal, with or without a core dump. -/
  | signaled (sig : Nat) (core : Bool)
deriving DecidableEq, Repr

/-- What `fork()` gives the worker: `-1`, or a child whose end it waits for. -/
inductive ForkResult
  /-- The branch `pid == -1`. -/
  | failed
  /-- The parent branch, `pid > 0`. -/
  | child (fate : ChildFate)
deriving DecidableEq, Repr

/-- Exit statuses are 8 bits wide, and terminating signals are numbered from 1
to 126 (the value `0x7f` in the low bits marks a stopped child). -/
def ChildFate.Valid : ChildFate → Prop
  | .exited status => status < 256
  | .signaled sig _ => 1 ≤ sig ∧ sig < 127

instance (f : ChildFate) : Decidable f.Valid := by
  cases f <;> unfold ChildFate.Valid <;> infer_instance

/-- The validity of what `fork` gives. -/
def ForkResult.Valid : ForkResult → Prop
  | .failed => True
  | .child fate => fate.Valid

instance (r : ForkResult) : Decidable r.Valid := by
  cases r <;> unfold ForkResult.Valid <;> infer_instance

/-- The wait status `waitpid(pid, &status, 0)` stores for the child. -/
def waitStatus : ChildFate → Nat
  | .exited status => status * 256
  | .signaled sig core => sig + (if core then 128 else 0)

/-- The macro `WIFEXITED(status)`, that is `((status) & 0x7f) == 0`. -/
def WIFEXITED (status : Nat) : Bool := status % 128 == 0

/-- The macro `WEXITSTATUS(status)`, that is `((status) & 0xff00) >> 8`. -/
def WEXITSTATUS (status : Nat) : Nat := (status / 256) % 256

/-- The value of `success` after the fork/exec block of
`ConversionManager::workerThread`. -/
def executeTask : ForkResult → Bool
  | .failed =>
    -- if (pid == -1) success = false;
    false
  | .child fate =>
    -- waitpid(pid, &status, 0);
    let status := waitStatus fate
    if WIFEXITED status then
      let exitCode := WEXITSTATUS status
      exitCode == 0
    else
      false

/-! ## ConversionManager: a failed `execvp`

When `execvp` returns, the child runs `exit(1)`, not `_exit`.  The child is a
copy of the whole process in which only the thread that called `fork` exists.
`exit` runs the destructors of the static objects, among them the destructor
of the singleton of `ConversionManager::instance()`.  That destructor locks
`queueMutex_`, sets `stop_`, and joins every thread of `workers_` and then
`cleanupThread_`. -/

/-- The signal `SIGABRT`, raised by `std::terminate`. -/
def SIGABRT : Nat := 6

/-- What `join()` does on a thread that does not exist in the forked child. -/
inductive MissingJoin
  /-- The call returns. -/
  | returns
  /-- The child is killed by this signal. -/
  | killed (sig : Nat)
  /-- The call never returns. -/
  | neverReturns
deriving DecidableEq, Repr

/-- What the forked child inherits and meets when it runs `exit(1)`. -/
structure ChildEnv where
  /-- The index in `workers_` of the worker thread that called `fork`. -/
  self : Nat
  /-- Whether another thread held `queueMutex_` when `fork` was called; the
  copy of the mutex in the child then stays locked. -/
  mutexHeld : Bool
  /-- What joining a thread that does not exist in the child does. -/
  missingJoin : MissingJoin
  /-- The core-dump flag of the wait status when the child is killed. -/
  core : Bool
deriving DecidableEq, Repr

/-- The joins of `~ConversionManager` in the forked child, over the indices of
`workers_` still to join: `for (std::thread &worker : workers_) worker.join();`
and then `cleanupThread_.join()`.  Joining the calling thread throws
`std::system_error` out of the destructor, so `std::terminate` raises
`SIGABRT`.  The result is how the child ends, `none` when it never ends; when
every join returns, the destructor returns and `exit(1)` ends the child with
exit status 1. -/
def joinInChild (env : ChildEnv) : List Nat → Option ChildFate
  | [] =>
    -- if (cleanupThread_.joinable()) cleanupThread_.join();
    match env.missingJoin with
    | .returns => some (.exited 1)
    | .killed sig => some (.signaled sig env.core)
    | .neverReturns => none
  | worker :: rest =>
    -- if (worker.joinable()) worker.join();
    if worker = env.self then some (.signaled SIGABRT env.core)
    else
      match env.missingJoin with
      | .returns => joinInChild env rest
      | .killed sig => some (.signaled sig env.core)
      | .neverReturns => none

/-- The call `exit(1)` in the forked child of a manager with `poolSize` worker
threads: how the child ends, `none` when it never ends. -/
def exitInChild (poolSize : Nat) (env : ChildEnv) : Option ChildFate :=
  -- std::unique_lock<std::mutex> lock(queueMutex_); stop_ = true;
  if env.mutexHeld then none
  else joinInChild env (List.range poolSize)

/-- What happens to the child process of one task. -/
inductive ChildRun
  /-- The call `fork()` returned `-1`: there is no child. -/
  | forkFailed
  /-- The call `execvp` replaced the child by the executable, which ended in
  this way. -/
  | launched (fate : ChildFate)
  /-- The call `execvp` returned and the child ran `exit(1)`. -/
  | execFailed (env : ChildEnv)
deriving DecidableEq, Repr

/-- What `fork` and `waitpid` give the worker for a run of the child; `none`
when `waitpid` never returns. -/
def waitResult (poolSize : Nat) : ChildRun → Option ForkResult
  | .forkFailed => some .failed
  | .launched fate => some (.child fate)
  | .execFailed env => (exitInChild poolSize env).map .child

/-- The boolean the worker reports for a run of the child; `none` when the
worker stays in `waitpid` and reports nothing. -/
def reportedOutcome (poolSize : Nat) (run : ChildRun) : Option Bool :=
  (waitResult poolSize run).map executeTask

/-! ## ConversionManager: the task queue -/

/-- The struct `ConversionTask`.  The callback is a closure; it is named by a
number, and `none` is an empty `std::function`. -/
structure ConversionTask where
  args : List String
  outputFilename : String
  inputFilename : String
  callback : Option Nat
deriving DecidableEq, Repr

/-- The members of `ConversionManager` the worker loop reads and writes.  The
queue `tasks_` is a list with the front first. -/
structure ManagerState where
  tasks_ : List ConversionTask
  stop_ : Bool
  totalConversions_ : Nat
deriving DecidableEq, Repr

/-- The state the constructor leaves: empty queue, `stop_ = false`, counter 0. -/
def ManagerState.initial : ManagerState := ⟨[], false, 0⟩

/-- The function `ConversionManager::addTask`: push the task at the back. -/
def addTask (args : List String) (inputFilename outputFilename : String)
    (callback : Option Nat) (s : ManagerState) : ManagerState :=
  { s with tasks_ := s.tasks_ ++ [⟨args, outputFilename, inputFilename, callback⟩] }

/-- What a worker does in the locked block at the top of its loop. -/
inductive WorkerStep
  /-- The wait predicate is false: the worker stays blocked. -/
  | waiting
  /-- The case `stop_ && tasks_.empty()`: the worker returns. -/
  | exited
  /-- The worker moved the front task out of the queue. -/
  | took (task : ConversionTask)
deriving DecidableEq, Repr

/-- The locked block at the top of the loop of `workerThread`: wait for
`stop_ || !tasks_.empty()`, return when `stop_ && tasks_.empty()`, otherwise
take the front task and pop it. -/
def workerDequeue (s : ManagerState) : WorkerStep × ManagerState :=
  if ¬ (s.stop_ || !s.tasks_.isEmpty) then (.waiting, s)
  else if s.stop_ && s.tasks_.isEmpty then (.exited, s)
  else
    match s.tasks_ with
    | [] => (.waiting, s)
    | task :: rest => (.took task, { s with tasks_ := rest })

/-- The events that touch the queue, each atomic under `queueMutex_`. -/
inductive QueueEvent
  /-- A caller runs `addTask`. -/
  | submit (args : List String) (inputFilename outputFilename : String)
      (callback : Option Nat)
  /-- A worker runs the locked block at the top of its loop. -/
  | dequeue
  /-- The destructor sets `stop_`. -/
  | stop
deriving DecidableEq, Repr

/-- The manager state together with the history of the queue: the jobs
submitted so far and the jobs dequeued so far, both in order. -/
structure QueueTrace where
  state : ManagerState
  submitted : List ConversionTask
  dequeued : List ConversionTask
deriving DecidableEq, Repr

/-- The trace of a manager that has just been constructed. -/
def QueueTrace.initial : QueueTrace := ⟨ManagerState.initial, [], []⟩

/-- One event applied to the trace. -/
def queueStep (tr : QueueTrace) : QueueEvent → QueueTrace
  | .submit args inputFilename outputFilename callback =>
    { tr with
      state := addTask args inputFilename outputFilename callback tr.state
      submitted := tr.submitted ++ [⟨args, outputFilename, inputFilename, callback⟩] }
  | .dequeue =>
    match workerDequeue tr.state with
    | (.took task, s') => { tr with state := s', dequeued := tr.dequeued ++ [task] }
    | (_, s') => { tr with state := s' }
  | .stop => { tr with state := { tr.state with stop_ := true } }

/-- An interleaving of events applied from a given trace. -/
def runQueue (tr : QueueTrace) (events : List QueueEvent) : QueueTrace :=
  events.foldl queueStep tr

/-- The queue invariant: the submitted jobs are the dequeued jobs followed by
the jobs still queued. -/
def QueueInv (tr : QueueTrace) : Prop :=
  tr.submitted = tr.dequeued ++ tr.state.tasks_

/-! ## ConversionManager: the constructor -/

/-- The number of worker threads `ConversionManager::ConversionManager` starts,
given the value `std::thread::hardware_concurrency()` returns. -/
def workerCount (hardwareConcurrency : Nat) : Nat :=
  -- unsigned int numThreads = std::thread::hardware_concurrency();
  let numThreads := hardwareConcurrency
  -- if (numThreads == 0) numThreads = 2;
  let numThreads := if numThreads == 0 then 2 else numThreads
  -- for (unsigned int i = 0; i < numThreads; ++i) workers_.emplace_back(...)
  (List.range numThreads).length

/-! ## ConverterController: filename sanitization

Step 3 of `ConverterController::convert`.  A `std::string` is a Lean string
with one character per `char`.  The process never calls `setlocale`, so
`isalnum` is the test of the "C" locale: an ASCII letter or digit. -/

/-- The library function `isalnum` in the "C" locale; no `char` above `0x7f`
is alphanumeric there. -/
def isalnum (c : Char) : Bool :=
  ('0' ≤ c && c ≤ '9') || ('A' ≤ c && c ≤ 'Z') || ('a' ≤ c && c ≤ 'z')

/-- The characters the sanitization keeps:
`isalnum(c) || c == '.' || c == '-' || c == '_'`. -/
def allowedChar (c : Char) : Bool :=
  isalnum c || c == '.' || c == '-' || c == '_'

/-- The loop over `rawFilename`: an allowed character is appended as it is,
any other character is appended as an underscore. -/
def sanitizeLoop : List Char → String → String
  | [], safeFilename => safeFilename
  | c :: rest, safeFilename =>
    if allowedChar c then sanitizeLoop rest (safeFilename.push c)
    else sanitizeLoop rest (safeFilename.push '_')

/-- The value of `safeFilename` that the upload path is built from. -/
def safeFilename (rawFilename : String) : String :=
  let safeFilename := sanitizeLoop rawFilename.data ""
  if safeFilename.isEmpty || safeFilename == "." || safeFilename == ".." then
    "video_file"
  else
    safeFilename

/-! ## ConversionManager: the argument vector

The child branch of `ConversionManager::workerThread`.  An entry of `cargs` is
a `char*`: either the null pointer, or a pointer to the buffer of an argument,
which `execvp` reads as a C string, up to the first NUL character. -/

/-- The C string behind `arg.c_str()`: the characters before the first NUL. -/
def c_str (arg : String) : List Char :=
  arg.data.takeWhile (fun c => c != Char.ofNat 0)

/-- The vector `cargs`: one entry per argument, pushed in order, then
`nullptr`, written `none`. -/
def buildCargs (args : List String) : List (Option (List Char)) :=
  -- for (const auto& arg : task.args) cargs.push_back(const_cast<char*>(arg.c_str()));
  let cargs := args.foldl (fun cargs arg => cargs ++ [some (c_str arg)]) []
  -- cargs.push_back(nullptr);
  cargs ++ [none]

/-- The string `cmdStr` built for the log line: every argument followed by a
space. -/
def cmdStr (args : List String) : String :=
  args.foldl (fun cmdStr arg => cmdStr ++ (arg ++ " ")) ""

/-- The call `execvp(file, argv)`. -/
structure ExecCall where
  file : Option (List Char)
  argv : List (Option (List Char))
deriving DecidableEq, Repr

/-- What the worker does with the arguments of a task: the line it logs, and
the call `execvp(cargs[0], cargs.data())` its child makes. -/
def childExec (task : ConversionTask) : String × ExecCall :=
  let logLine := "Worker processing conversion: " ++ cmdStr task.args
  let cargs := buildCargs task.args
  (logLine, ⟨cargs.headD none, cargs⟩)

/-- An argument without a NUL character. -/
def NulFree (arg : String) : Prop := Char.ofNat 0 ∉ arg.data

instance (arg : String) : Decidable (NulFree arg) := by
  unfold NulFree; infer_instance

/-! ## ConversionManager: the retention sweeper

The scan inside `ConversionManager::cleanupLoop`.  The file system is the
environment: a directory listing gives, for each direct entry, what
`is_regular_file()` returns, what `last_write_time()` returns or that it
throws, and whether `fs::remove` throws.  Times are ticks of the file clock
(nanoseconds). -/

/-- One entry of a non-recursive directory listing. -/
structure DirEntry where
  path : String
  /-- The value of `entry.is_regular_file()`. -/
  isRegularFile : Bool
  /-- The value of `entry.last_write_time()`; `none` when the call throws. -/
  lastWriteTime : Option Int
  /-- Whether `fs::remove(entry.path())` completes; `false` when it throws. -/
  removable : Bool
deriving DecidableEq, Repr

/-- The constant `maxFileAge = std::chrono::hours(1)`, in ticks. -/
def maxFileAge : Int := 60 * 60 * 1000000000

/-- One second, in ticks. -/
def oneSecond : Int := 1000000000

/-- What a scan has done so far. -/
structure ScanLog where
  /-- The entries the loop body ran for, in order. -/
  visited : List DirEntry
  /-- The entries removed. -/
  deleted : List DirEntry
  /-- The entries whose exception was caught and logged. -/
  errors : List DirEntry
deriving DecidableEq, Repr

/-- The body of the `try` block for one regular file: `true` when the file was
removed, an exception when `last_write_time` or `fs::remove` throws. -/
def tryDelete (now : Int) (entry : DirEntry) : Except String Bool :=
  -- auto ftime = entry.last_write_time();
  match entry.lastWriteTime with
  | none => .error "last_write_time"
  | some ftime =>
    -- if ((now - ftime) > maxFileAge) fs::remove(entry.path());
    if now - ftime > maxFileAge then
      if entry.removable then .ok true else .error "remove"
    else .ok false

/-- The body of the loop over the entries of one directory.  An exception that
is not caught would leave through the `Except`. -/
def scanEntry (now : Int) (log : ScanLog) (entry : DirEntry) : Except String ScanLog :=
  let log := { log with visited := log.visited ++ [entry] }
  -- if (!entry.is_regular_file()) continue;
  if !entry.isRegularFile then .ok log
  else
    -- try { ... } catch (const std::exception& e) { LOG_ERROR ... }
    match tryDelete now entry with
    | .ok true => .ok { log with deleted := log.deleted ++ [entry] }
    | .ok false => .ok log
    | .error _ => .ok { log with errors := log.errors ++ [entry] }

/-- The loop over the entries of one directory. -/
def scanDirectory (now : Int) : List DirEntry → ScanLog → Except String ScanLog
  | [], log => .ok log
  | entry :: rest, log =>
    match scanEntry now log entry with
    | .ok log' => scanDirectory now rest log'
    | .error e => .error e

/-- The loop over the target directories; a directory that does not exist is
`none` and is skipped. -/
def scanDirectories (now : Int) : List (Option (List DirEntry)) → ScanLog →
    Except String ScanLog
  | [], log => .ok log
  | none :: rest, log => scanDirectories now rest log
  | some entries :: rest, log =>
    match scanDirectory now entries log with
    | .ok log' => scanDirectories now rest log'
    | .error e => .error e

/-- One scan: `now` is read once, then both target directories are listed. -/
def cleanupScan (now : Int) (dirs : List (Option (List DirEntry))) : Except String ScanLog :=
  scanDirectories now dirs ⟨[], [], []⟩

/-- One wake-up of the sweeper: whether the wait ended because `stop_` is set,
the clock reading, and the listings of the target directories at that time. -/
structure WakeUp where
  stop : Bool
  now : Int
  dirs : List (Option (List DirEntry))
deriving DecidableEq, Repr

/-- The function `ConversionManager::cleanupLoop` along a sequence of wake-ups:
the logs of the scans it ran.  It returns at the first wake-up with `stop`; an
exception leaving a scan would end it with `.error`. -/
def cleanupLoop : List WakeUp → Except String (List ScanLog)
  | [] => .ok []
  | w :: rest =>
    if w.stop then .ok []
    else
      match cleanupScan w.now w.dirs with
      | .ok log =>
        match cleanupLoop rest with
        | .ok logs => .ok (log :: logs)
        | .error e => .error e
      | .error e => .error e

/-- The entries listed in the directories that exist, in scan order. -/
def listedEntries : List (Option (List DirEntry)) → List DirEntry
  | [] => []
  | none :: rest => listedEntries rest
  | some entries :: rest => entries ++ listedEntries rest

/-- The entry is a regular file whose modification time can be read and is
more than `maxFileAge` before `now`. -/
def tooOld (now : Int) (entry : DirEntry) : Bool :=
  entry.isRegularFile &&
    match entry.lastWriteTime with
    | some ftime => decide (now - ftime > maxFileAge)
    | none => false

/-- The entry is a regular file on which `last_write_time` throws, or which is
too old and on which `fs::remove` throws. -/
def faulted (now : Int) (entry : DirEntry) : Bool :=
  entry.isRegularFile &&
    match entry.lastWriteTime with
    | some ftime => decide (now - ftime > maxFileAge) && !entry.removable
    | none => true

/-! ## ConversionManager: the worker pool

The pool as a transition system.  The events are atomic: `addTask` and the
locked block at the top of the worker loop run under `queueMutex_`, and the
rest of the loop body touches shared state only through the atomic counter.
Between the locked block and the end of the loop body a worker holds its task,
so other events can happen in between.  Next to the members of the manager the
state records the history of the run: the jobs submitted, the jobs dequeued,
the jobs completed and the callback invocations. -/

/-- The accessor `getTotalConversions`.  The counter is a
`std::atomic<uint64_t>`; it grows by one per successful external process and
stays far below `2^64`, so it is a natural number here. -/
def getTotalConversions (s : ManagerState) : Nat := s.totalConversions_

/-- The function `incrementTotalConversions`. -/
def incrementTotalConversions (s : ManagerState) : ManagerState :=
  { s with totalConversions_ := s.totalConversions_ + 1 }

/-- The loop body of `workerThread` after the locked block, for the task the
worker holds and the way its child process ends: the callback invocations made
(closure and argument) and the manager afterwards. -/
def processTask (task : ConversionTask) (result : ForkResult) (s : ManagerState) :
    List (Nat × Bool) × ManagerState :=
  let success := executeTask result
  -- if (success) ConversionManager::instance().incrementTotalConversions();
  let s := if success then incrementTotalConversions s else s
  -- if (task.callback) task.callback(success);
  match task.callback with
  | some callback => ([(callback, success)], s)
  | none => ([], s)

/-- Where a worker thread is in `workerThread`. -/
inductive WorkerState
  /-- At the top of the loop, before or inside the wait. -/
  | idle
  /-- Past the locked block, holding the task that was dequeued as number
  `job`. -/
  | busy (job : Nat) (task : ConversionTask)
  /-- Returned from `workerThread`. -/
  | exited
deriving DecidableEq, Repr

/-- A completed loop body: the number of the job, its task, and `success`. -/
structure Completion where
  job : Nat
  task : ConversionTask
  success : Bool
deriving DecidableEq, Repr

/-- A callback invocation: the number of the job, the closure, the argument. -/
structure Invocation where
  job : Nat
  callback : Nat
  argument : Bool
deriving DecidableEq, Repr

/-- The state of the pool and the history of the run. -/
structure PoolState where
  manager : ManagerState
  /-- The member `workers_`. -/
  workers : List WorkerState
  /-- The jobs submitted, in order; job number `j` is `submitted[j]`. -/
  submitted : List ConversionTask
  /-- The jobs dequeued, in order. -/
  dequeued : List ConversionTask
  /-- The loop bodies completed, in order. -/
  completed : List Completion
  /-- The callback invocations, in order. -/
  invoked : List Invocation
  /-- The number of jobs submitted before `stop_` was set, once it is set. -/
  stopMark : Option Nat
deriving DecidableEq, Repr

/-- A new pool with the given number of worker threads. -/
def PoolState.start (poolSize : Nat) : PoolState :=
  ⟨ManagerState.initial, List.replicate poolSize .idle, [], [], [], [], none⟩

/-- The events of the pool. -/
inductive PoolEvent
  /-- A caller runs `addTask`. -/
  | submit (args : List String) (inputFilename outputFilename : String)
      (callback : Option Nat)
  /-- The destructor sets `stop_`. -/
  | stop
  /-- The worker with this index runs the locked block at the top of its loop. -/
  | wake (worker : Nat)
  /-- The child process of the worker with this index ends in this way, and the
  worker runs the rest of its loop body. -/
  | finish (worker : Nat) (result : ForkResult)
deriving DecidableEq, Repr

/-- One event of the pool.  An event that does not apply (a worker index out of
range, a `wake` for a worker that is not at the top of its loop, a `finish` for
a worker that holds no task) changes nothing. -/
def poolStep (st : PoolState) : PoolEvent → PoolState
  | .submit args inputFilename outputFilename callback =>
    { st with
      manager := addTask args inputFilename outputFilename callback st.manager
      submitted := st.submitted ++ [⟨args, outputFilename, inputFilename, callback⟩] }
  | .stop =>
    { st with
      manager := { st.manager with stop_ := true }
      stopMark := match st.stopMark with
        | none => some st.submitted.length
        | some k => some k }
  | .wake worker =>
    match st.workers[worker]? with
    | some .idle =>
      match workerDequeue st.manager with
      | (.took task, s') =>
        { st with
          manager := s'
          workers := st.workers.set worker (.busy st.dequeued.length task)
          dequeued := st.dequeued ++ [task] }
      | (.exited, s') => { st with manager := s', workers := st.workers.set worker .exited }
      | (.waiting, s') => { st with manager := s' }
    | _ => st
  | .finish worker result =>
    match st.workers[worker]? with
    | some (.busy job task) =>
      let out := processTask task result st.manager
      { st with
        manager := out.2
        workers := st.workers.set worker .idle
        completed := st.completed ++ [⟨job, task, executeTask result⟩]
        invoked := st.invoked ++ out.1.map (fun c => ⟨job, c.1, c.2⟩) }
    | _ => st

/-- A run of the pool: the events applied in order. -/
def runPool (st : PoolState) (events : List PoolEvent) : PoolState :=
  events.foldl poolStep st

/-- The pool after the child process of the worker with this index has run:
when `waitpid` returns the worker runs the rest of its loop body, otherwise it
stays in `waitpid` and the pool is as it was. -/
def poolAfterChild (st : PoolState) (worker : Nat) (run : ChildRun) : PoolState :=
  match waitResult st.workers.length run with
  | some result => poolStep st (.finish worker result)
  | none => st

/-- A pool of two workers in which the second worker has taken a job with a
callback whose executable does not exist. -/
def stuckPool : PoolState :=
  runPool (PoolState.start 2)
    [.submit ["no-such-program"] "in" "out" (some 7), .wake 1]

/-- The worker holds job number `j`. -/
def WorkerState.holds (j : Nat) : WorkerState → Bool
  | .busy job _ => job == j
  | _ => false

/-- The callback invocation a completed loop body made, if its task carries a
callback. -/
def Completion.invocation (c : Completion) : Option Invocation :=
  c.task.callback.map (fun callback => ⟨c.job, callback, c.success⟩)

/-- The invariant of the pool. -/
structure PoolInv (st : PoolState) : Prop where
  /-- The submitted jobs are the dequeued jobs followed by the queued jobs. -/
  queue : st.submitted = st.dequeued ++ st.manager.tasks_
  /-- Every dequeued job is either held by exactly one worker or completed
  exactly once, and no other job number occurs. -/
  account : ∀ j, st.completed.countP (fun c => c.job == j)
      + st.workers.countP (WorkerState.holds j)
    = if j < st.dequeued.length then 1 else 0
  /-- A worker holds the task that was dequeued under its job number. -/
  held : ∀ j task, WorkerState.busy j task ∈ st.workers → st.dequeued[j]? = some task
  /-- A completion names the task that was dequeued under its job number. -/
  done : ∀ c ∈ st.completed, st.dequeued[c.job]? = some c.task
  /-- The callback invocations are those of the completed loop bodies. -/
  calls : st.invoked = st.completed.filterMap Completion.invocation
  /-- Once `stop_` is set the mark is set. -/
  marked : st.manager.stop_ = true → st.stopMark.isSome = true
  /-- The mark counts jobs that were submitted. -/
  markLe : ∀ k, st.stopMark = some k → k ≤ st.submitted.length
  /-- A worker returns only after `stop_` is set, and once a worker has
  returned the jobs submitted before the stop signal have all been dequeued. -/
  drained : WorkerState.exited ∈ st.workers →
    st.manager.stop_ = true ∧ ∀ k, st.stopMark = some k → k ≤ st.dequeued.length
  /-- The counter is the number of successful completions. -/
  counter : getTotalConversions st.manager = st.completed.countP (fun c => c.success)

/-- A run of a pool of two workers: two jobs are submitted, the stop signal is
given while the first is running, a third job is submitted after it, and both
workers return once the queue is empty. -/
def sampleRun : List PoolEvent :=
  [.submit ["ffmpeg", "-i", "in1"] "in1" "out1" (some 7),
    .submit ["zip", "out2"] "" "out2" none,
    .wake 0, .stop, .wake 1,
    .submit ["ffmpeg", "-i", "in3"] "in3" "out3" (some 9),
    .finish 0 .failed, .wake 0,
    .finish 1 (.child (.exited 0)), .wake 1,
    .finish 0 (.child (.signaled 9 false)), .wake 0]

/-! ## RateLimiter: lemmas on the map operations -/

theorem mapFind_eq_none_of_not_mem {m : IpHistory} {k : String} (h : k ∉ keys m) :
    mapFind m k = none := by
  induction m with
  | nil => rfl
  | cons e rest ih =>
    obtain ⟨k', h'⟩ := e
    simp only [keys, List.map_cons, List.mem_cons, not_or] at h
    have hne : ¬ k' = k := fun hh => h.1 hh.symm
    simp only [mapFind, hne, if_false]
    exact ih h.2

theorem not_mem_keys_of_mapFind_none {m : IpHistory} {k : String}
    (hf : mapFind m k = none) : k ∉ keys m := by
  induction m with
  | nil => simp [keys]
  | cons e rest ih =>
    obtain ⟨k', h'⟩ := e
    by_cases hk : k' = k
    · simp [mapFind, hk] at hf
    · simp only [mapFind, hk, if_false] at hf
      simp only [keys, List.map_cons, List.mem_cons, not_or]
      exact ⟨fun hh => hk hh.symm, ih hf⟩

theorem mem_keys_of_mapFind {m : IpHistory} {k : String} {h : RequestHistory}
    (hf : mapFind m k = some h) : k ∈ keys m := by
  by_contra hk
  rw [mapFind_eq_none_of_not_mem hk] at hf
  cases hf

theorem mapFind_mem {m : IpHistory} {k : String} {h : RequestHistory}
    (hf : mapFind m k = some h) : (k, h) ∈ m := by
  induction m with
  | nil => cases hf
  | cons e rest ih =>
    obtain ⟨k', h'⟩ := e
    by_cases hk : k' = k
    · simp only [mapFind, hk, if_true, Option.some.injEq] at hf
      subst hf; subst hk
      exact List.mem_cons_self _ _
    · simp only [mapFind, hk, if_false] at hf
      exact List.mem_cons_of_mem _ (ih hf)

theorem mapFind_of_mem {m : IpHistory} (hu : UniqueKeys m) {k : String} {h : RequestHistory}
    (hm : (k, h) ∈ m) : mapFind m k = some h := by
  induction m with
  | nil => cases hm
  | cons e rest ih =>
    obtain ⟨k', h'⟩ := e
    have hu' : k' ∉ keys rest ∧ UniqueKeys rest := by
      simpa [UniqueKeys, keys] using hu
    rcases List.mem_cons.1 hm with heq | hin
    · cases heq
      simp [mapFind]
    · have hk : k ∈ keys rest := List.mem_map.2 ⟨(k, h), hin, rfl⟩
      have hne : ¬ k' = k := fun hh => hu'.1 (hh ▸ hk)
      simp only [mapFind, hne, if_false]
      exact ih hu'.2 hin

theorem mapFind_append (m n : IpHistory) (k : String) :
    mapFind (m ++ n) k = (mapFind m k).orElse (fun _ => mapFind n k) := by
  induction m with
  | nil => simp [mapFind]
  | cons e rest ih =>
    obtain ⟨k', h'⟩ := e
    by_cases hk : k' = k
    · simp [mapFind, hk]
    · simp [mapFind, hk, ih]

theorem keys_mapAssign (m : IpHistory) (k : String) (h : RequestHistory) :
    keys (mapAssign m k h) = keys m := by
  induction m with
  | nil => rfl
  | cons e rest ih =>
    obtain ⟨k', h'⟩ := e
    by_cases hk : k' = k
    · simpa [mapAssign, keys, hk] using ih
    · simpa [mapAssign, keys, hk] using ih

theorem mapSize_mapAssign (m : IpHistory) (k : String) (h : RequestHistory) :
    mapSize (mapAssign m k h) = mapSize m := by
  have := congrArg List.length (keys_mapAssign m k h)
  simpa [keys, mapSize] using this

theorem mapFind_mapAssign_self (m : IpHistory) (k : String) (h : RequestHistory) :
    mapFind (mapAssign m k h) k = (mapFind m k).map (fun _ => h) := by
  induction m with
  | nil => rfl
  | cons e rest ih =>
    obtain ⟨k', h'⟩ := e
    by_cases hk : k' = k
    · simp [mapAssign, mapFind, hk]
    · simp [mapAssign, mapFind, hk, ih]

theorem mapFind_mapAssign_ne (m : IpHistory) {k k' : String} (h : RequestHistory)
    (hne : k' ≠ k) : mapFind (mapAssign m k h) k' = mapFind m k' := by
  induction m with
  | nil => rfl
  | cons e rest ih =>
    obtain ⟨k0, h0⟩ := e
    by_cases hk : k0 = k
    · have hk' : ¬ k0 = k' := fun hh => hne (hh ▸ hk)
      simp [mapAssign, mapFind, hk, ih]
      simp [← hk, hk']
    · by_cases hk' : k0 = k'
      · simp [mapAssign, mapFind, hk, hk']
        simp [← hk', hk, mapFind]
      · simp [mapAssign, mapFind, hk, hk', ih]

theorem mapAssign_of_not_mem {m : IpHistory} {k : String} (h : RequestHistory)
    (hk : k ∉ keys m) : mapAssign m k h = m := by
  induction m with
  | nil => rfl
  | cons e rest ih =>
    obtain ⟨k', h'⟩ := e
    simp only [keys, List.map_cons, List.mem_cons, not_or] at hk
    have hne : ¬ k' = k := fun hh => hk.1 hh.symm
    simp only [mapAssign, hne, if_false]
    rw [ih hk.2]

theorem mem_mapAssign {m : IpHistory} {k : String} {h : RequestHistory}
    {e : String × RequestHistory} (he : e ∈ mapAssign m k h) :
    e ∈ m ∨ (e = (k, h) ∧ k ∈ keys m) := by
  induction m with
  | nil => cases he
  | cons e0 rest ih =>
    obtain ⟨k', h'⟩ := e0
    by_cases hk : k' = k
    · simp only [mapAssign, hk, if_true, List.mem_cons] at he
      rcases he with he | he
      · exact Or.inr ⟨he, by simp [keys, hk]⟩
      · rcases ih he with h1 | h1
        · exact Or.inl (List.mem_cons_of_mem _ h1)
        · exact Or.inr ⟨h1.1, by simp [keys, hk]⟩
    · simp only [mapAssign, hk, if_false, List.mem_cons] at he
      rcases he with he | he
      · exact Or.inl (he ▸ List.mem_cons_self _ _)
      · rcases ih he with h1 | h1
        · exact Or.inl (List.mem_cons_of_mem _ h1)
        · refine Or.inr ⟨h1.1, ?_⟩
          have := h1.2
          simp only [keys, List.map_cons, List.mem_cons]
          exact Or.inr this

theorem mapFind_mapSubscript_self (m : IpHistory) (k : String) :
    mapFind (mapSubscript m k) k = some (histOf m k) := by
  unfold mapSubscript histOf
  cases hf : mapFind m k with
  | some h => simp [hf]
  | none => simp [mapFind_append, hf, mapFind]

theorem mapFind_mapSubscript_ne (m : IpHistory) {k k' : String} (hne : k' ≠ k) :
    mapFind (mapSubscript m k) k' = mapFind m k' := by
  unfold mapSubscript
  cases hf : mapFind m k with
  | some h => rfl
  | none =>
    have hk : ¬ k = k' := fun hh => hne hh.symm
    simp only [mapFind_append, mapFind, hk, if_false]
    cases mapFind m k' <;> rfl

theorem mem_mapSubscript {m : IpHistory} {k : String} {e : String × RequestHistory}
    (he : e ∈ mapSubscript m k) : e ∈ m ∨ e = (k, ⟨[]⟩) := by
  unfold mapSubscript at he
  cases hf : mapFind m k with
  | some h => rw [hf] at he; exact Or.inl he
  | none =>
    rw [hf] at he
    simpa using he

theorem uniqueKeys_mapAssign {m : IpHistory} (hu : UniqueKeys m) (k : String)
    (h : RequestHistory) : UniqueKeys (mapAssign m k h) := by
  unfold UniqueKeys
  rw [keys_mapAssign]
  exact hu

theorem uniqueKeys_mapSubscript {m : IpHistory} (hu : UniqueKeys m) (k : String) :
    UniqueKeys (mapSubscript m k) := by
  unfold mapSubscript
  cases hf : mapFind m k with
  | some h => exact hu
  | none =>
    have hk : k ∉ keys m := not_mem_keys_of_mapFind_none hf
    simp only [UniqueKeys, keys, List.map_append, List.map_cons, List.map_nil]
    refine List.Nodup.append hu (List.nodup_singleton _) ?_
    intro a ha hb
    rw [List.mem_singleton] at hb
    exact hk (hb ▸ ha)

/-! ## RateLimiter: lemmas on the trim -/

theorem popOld_suffix (c : Int) (l : List Int) : popOld c l <:+ l := by
  induction l with
  | nil => exact List.suffix_refl _
  | cons t ts ih =>
    by_cases h : t < c
    · simp only [popOld, h, if_true]
      exact List.IsSuffix.trans ih (List.suffix_cons t ts)
    · simp only [popOld, h, if_false]
      exact List.suffix_refl _

theorem popOld_length_le (c : Int) (l : List Int) :
    (popOld c l).length ≤ l.length :=
  (popOld_suffix c l).length_le

theorem popOld_subset {c : Int} {l : List Int} {x : Int}
    (hx : x ∈ popOld c l) : x ∈ l :=
  (popOld_suffix c l).subset hx

theorem popOld_pairwise {c : Int} {l : List Int}
    (hs : l.Pairwise (· ≤ ·)) : (popOld c l).Pairwise (· ≤ ·) :=
  hs.sublist (popOld_suffix c l).sublist

/-- The front of a trimmed sequence is not older than the cutoff. -/
theorem popOld_head_ge (c : Int) (l : List Int) :
    ∀ x ∈ (popOld c l).head?, c ≤ x := by
  induction l with
  | nil => simp [popOld]
  | cons t ts ih =>
    by_cases h : t < c
    · simpa only [popOld, h, if_true] using ih
    · simp only [popOld, h, if_false, List.head?_cons, Option.mem_def, Option.some.injEq]
      intro x hx
      omega

/-- Nothing is popped when the front is not older than the cutoff. -/
theorem popOld_eq_self_of_head {c t : Int} (ts : List Int) (h : c ≤ t) :
    popOld c (t :: ts) = t :: ts := by
  have : ¬ t < c := by omega
  simp only [popOld, this, if_false]

/-- A front older than the cutoff is popped. -/
theorem popOld_length_lt_of_head {c t : Int} (ts : List Int) (h : t < c) :
    (popOld c (t :: ts)).length < (t :: ts).length := by
  simp only [popOld, h, if_true, List.length_cons]
  exact Nat.lt_succ_of_le (popOld_length_le c ts)

theorem popOld_idem (c : Int) (l : List Int) :
    popOld c (popOld c l) = popOld c l := by
  induction l with
  | nil => rfl
  | cons t ts ih =>
    by_cases h : t < c
    · simpa only [popOld, h, if_true] using ih
    · simp only [popOld, h, if_false]

/-- Trimming at a later cutoff absorbs an earlier trim. -/
theorem popOld_popOld_of_le {c c' : Int} (hc : c ≤ c') (l : List Int) :
    popOld c' (popOld c l) = popOld c' l := by
  induction l with
  | nil => rfl
  | cons t ts ih =>
    by_cases h : t < c
    · have h' : t < c' := by omega
      simpa only [popOld, h, h', if_true] using ih
    · simp only [popOld, h, if_false]

/-- Everything is popped when every element is older than the cutoff. -/
theorem popOld_eq_nil_of_all_lt {c : Int} {l : List Int}
    (h : ∀ x ∈ l, x < c) : popOld c l = [] := by
  induction l with
  | nil => rfl
  | cons t ts ih =>
    have ht : t < c := h t (List.mem_cons_self _ _)
    simp only [popOld, ht, if_true]
    exact ih (fun x hx => h x (List.mem_cons_of_mem _ hx))

/-- On a time-ordered sequence the loop of `cleanup` removes exactly the
elements older than the cutoff. -/
theorem popOld_eq_filter {c : Int} {l : List Int}
    (hs : l.Pairwise (· ≤ ·)) :
    popOld c l = l.filter (fun t => decide (c ≤ t)) := by
  induction l with
  | nil => rfl
  | cons t ts ih =>
    have hp := List.pairwise_cons.1 hs
    by_cases h : t < c
    · have h' : ¬ c ≤ t := by omega
      simp only [popOld, h, if_true, List.filter_cons, h', decide_False]
      exact ih hp.2
    · have h' : c ≤ t := by omega
      simp only [popOld, h, if_false, List.filter_cons, h', decide_True, if_true]
      congr 1
      symm
      apply List.filter_eq_self.2
      intro x hx
      have := hp.1 x hx
      simp only [decide_eq_true_eq]
      omega

theorem cleanup_idem (now : Int) (h : RequestHistory) :
    cleanup now (cleanup now h) = cleanup now h := by
  simp [cleanup, popOld_idem]

theorem cleanup_cleanup_of_le {t now : Int} (hle : t ≤ now) (h : RequestHistory) :
    cleanup now (cleanup t h) = cleanup now h := by
  simp only [cleanup]
  rw [popOld_popOld_of_le (by omega)]

theorem cleanup_length_le (now : Int) (h : RequestHistory) :
    (cleanup now h).timestamps.length ≤ h.timestamps.length :=
  popOld_length_le _ _

/-! ## RateLimiter: lemmas on the compaction pass -/

theorem mem_cleanupStaleEntries {now : Int} {m : IpHistory} {k : String}
    {h : RequestHistory} :
    (k, h) ∈ cleanupStaleEntries now m ↔
      ∃ h0, (k, h0) ∈ m ∧ compactEntry now h0 = some h := by
  induction m with
  | nil => simp [cleanupStaleEntries]
  | cons e0 rest ih =>
    obtain ⟨k0, h0⟩ := e0
    by_cases hemp : (cleanup now h0).timestamps.isEmpty = true
    · have hstep : cleanupStaleEntries now ((k0, h0) :: rest) = cleanupStaleEntries now rest := by
        simp only [cleanupStaleEntries, hemp, if_true]
      rw [hstep, ih]
      constructor
      · rintro ⟨h1, hin, hc⟩
        exact ⟨h1, List.mem_cons_of_mem _ hin, hc⟩
      · rintro ⟨h1, hin, hc⟩
        rcases List.mem_cons.1 hin with heq | hin
        · cases heq
          simp [compactEntry, hemp] at hc
        · exact ⟨h1, hin, hc⟩
    · have hstep : cleanupStaleEntries now ((k0, h0) :: rest)
          = (k0, cleanup now h0) :: cleanupStaleEntries now rest := by
        simp only [cleanupStaleEntries, hemp]
        rfl
      rw [hstep, List.mem_cons, ih]
      constructor
      · rintro (heq | ⟨h1, hin, hc⟩)
        · cases heq
          exact ⟨h0, List.mem_cons_self _ _, by simp [compactEntry, hemp]⟩
        · exact ⟨h1, List.mem_cons_of_mem _ hin, hc⟩
      · rintro ⟨h1, hin, hc⟩
        rcases List.mem_cons.1 hin with heq | hin
        · cases heq
          left
          simp only [compactEntry, hemp] at hc
          simp only [Bool.false_eq_true, if_false, Option.some.injEq] at hc
          rw [hc]
        · exact Or.inr ⟨h1, hin, hc⟩

theorem keys_cleanupStaleEntries_sublist (now : Int) (m : IpHistory) :
    (keys (cleanupStaleEntries now m)).Sublist (keys m) := by
  induction m with
  | nil => exact List.Sublist.refl _
  | cons e0 rest ih =>
    obtain ⟨k0, h0⟩ := e0
    by_cases hemp : (cleanup now h0).timestamps.isEmpty = true
    · simp only [cleanupStaleEntries, hemp, if_true, keys, List.map_cons]
      exact List.Sublist.cons _ ih
    · simp only [cleanupStaleEntries, hemp, if_false, keys, List.map_cons]
      exact List.Sublist.cons₂ _ ih

theorem uniqueKeys_cleanupStaleEntries {m : IpHistory} (hu : UniqueKeys m) (now : Int) :
    UniqueKeys (cleanupStaleEntries now m) :=
  List.Nodup.sublist (keys_cleanupStaleEntries_sublist now m) hu

/-- Lookup after the compaction pass, key by key. -/
theorem mapFind_cleanupStaleEntries {m : IpHistory} (hu : UniqueKeys m) (now : Int)
    (k : String) :
    mapFind (cleanupStaleEntries now m) k = (mapFind m k).bind (compactEntry now) := by
  cases hf : mapFind m k with
  | none =>
    simp only [Option.none_bind]
    cases hg : mapFind (cleanupStaleEntries now m) k with
    | none => rfl
    | some g =>
      obtain ⟨h, hin, -⟩ := mem_cleanupStaleEntries.1 (mapFind_mem hg)
      rw [mapFind_of_mem hu hin] at hf
      cases hf
  | some h =>
    simp only [Option.some_bind]
    have hin := mapFind_mem hf
    cases hc : compactEntry now h with
    | none =>
      cases hg : mapFind (cleanupStaleEntries now m) k with
      | none => rfl
      | some g =>
        obtain ⟨h1, hin1, hc1⟩ := mem_cleanupStaleEntries.1 (mapFind_mem hg)
        have := mapFind_of_mem hu hin1
        rw [hf] at this
        cases this
        rw [hc] at hc1
        cases hc1
    | some g =>
      exact mapFind_of_mem (uniqueKeys_cleanupStaleEntries hu now)
        (mem_cleanupStaleEntries.2 ⟨h, hin, hc⟩)

theorem cleanupStaleEntries_cons (now : Int) (k : String) (h : RequestHistory)
    (rest : IpHistory) :
    cleanupStaleEntries now ((k, h) :: rest)
      = if (cleanup now h).timestamps.isEmpty then cleanupStaleEntries now rest
        else (k, cleanup now h) :: cleanupStaleEntries now rest := rfl

theorem cleanupStaleEntries_append (now : Int) (m n : IpHistory) :
    cleanupStaleEntries now (m ++ n)
      = cleanupStaleEntries now m ++ cleanupStaleEntries now n := by
  induction m with
  | nil => rfl
  | cons e0 rest ih =>
    obtain ⟨k0, h0⟩ := e0
    rw [List.cons_append, cleanupStaleEntries_cons, cleanupStaleEntries_cons, ih]
    split <;> simp

/-- The compaction pass changes nothing when no history is empty and every
front is inside the window. -/
theorem cleanupStaleEntries_eq_self {now : Int} {m : IpHistory}
    (hlive : ∀ e ∈ m, ∃ t ts, e.2.timestamps = t :: ts ∧ now - TIME_WINDOW ≤ t) :
    cleanupStaleEntries now m = m := by
  induction m with
  | nil => rfl
  | cons e0 rest ih =>
    obtain ⟨k0, h0⟩ := e0
    obtain ⟨t, ts, hts, hle⟩ := hlive (k0, h0) (List.mem_cons_self _ _)
    have hc : cleanup now h0 = h0 := by
      cases h0 with
      | mk l =>
        simp only at hts
        subst hts
        simp only [cleanup, popOld_eq_self_of_head ts hle]
    have hemp : ¬ (cleanup now h0).timestamps.isEmpty = true := by
      rw [hc, hts]
      simp
    rw [cleanupStaleEntries_cons, if_neg hemp, hc,
      ih (fun e he => hlive e (List.mem_cons_of_mem _ he))]

/-! ## RateLimiter: what one `isAllowed` call does -/

/-- Every node for the key holds the assigned value after a write through the
reference. -/
theorem eq_of_mem_mapAssign_key {m : IpHistory} {k : String} {h g : RequestHistory}
    (hm : (k, g) ∈ mapAssign m k h) : g = h := by
  induction m with
  | nil => cases hm
  | cons e0 rest ih =>
    obtain ⟨k0, h0⟩ := e0
    by_cases hk : k0 = k
    · simp only [mapAssign, hk, if_true, List.mem_cons, Prod.mk.injEq, true_and] at hm
      rcases hm with hm | hm
      · exact hm
      · exact ih hm
    · simp only [mapAssign, hk, if_false, List.mem_cons, Prod.mk.injEq] at hm
      rcases hm with hm | hm
      · exact absurd hm.1.symm hk
      · exact ih hm

/-- What the reference `history` reads at the size test: the trimmed history,
whether or not its node survived the compaction pass. -/
theorem history_read (m : IpHistory) (k : String) (now : Int) :
    (mapFind (afterCompaction m k now) k).getD (trimmedOf m k now) = trimmedOf m k now := by
  cases hf : mapFind (afterCompaction m k now) k with
  | none => rfl
  | some g =>
    simp only [Option.getD_some]
    have hin := mapFind_mem hf
    unfold afterCompaction at hin
    simp only at hin
    split at hin
    · obtain ⟨h0, hin0, hc⟩ := mem_cleanupStaleEntries.1 hin
      have h0eq := eq_of_mem_mapAssign_key hin0
      subst h0eq
      unfold compactEntry at hc
      split at hc
      · cases hc
      · simp only [Option.some.injEq] at hc
        rw [← hc]
        exact cleanup_idem now (histOf m k)
    · exact eq_of_mem_mapAssign_key hin

/-- The function `isAllowed` in closed form: the decision is taken on the
trimmed history, and an admission is written to the key's node if it exists. -/
theorem isAllowed_eq (k : String) (now : Int) (m : IpHistory) :
    isAllowed k now m =
      if ((trimmedOf m k now).timestamps.length : Int) ≥ MAX_REQUESTS_PER_WINDOW then
        (false, afterCompaction m k now)
      else
        (true, mapAssign (afterCompaction m k now) k
          ⟨(trimmedOf m k now).timestamps ++ [now]⟩) := by
  have hread := history_read m k now
  unfold afterCompaction trimmedOf at hread
  simp only [mapFind_mapSubscript_self] at hread
  unfold isAllowed afterCompaction trimmedOf
  simp only [mapFind_mapSubscript_self, Option.getD_some]
  rw [hread]

theorem isAllowed_fst (k : String) (now : Int) (m : IpHistory) :
    (isAllowed k now m).1 = decide ((trimmedOf m k now).timestamps.length < 10) := by
  rw [isAllowed_eq]
  by_cases h : (trimmedOf m k now).timestamps.length < 10
  · have : ¬ ((trimmedOf m k now).timestamps.length : Int) ≥ MAX_REQUESTS_PER_WINDOW := by
      unfold MAX_REQUESTS_PER_WINDOW; omega
    simp [this, h]
  · have : ((trimmedOf m k now).timestamps.length : Int) ≥ MAX_REQUESTS_PER_WINDOW := by
      unfold MAX_REQUESTS_PER_WINDOW; omega
    simp [this, h]

theorem isAllowed_snd_of_denied {k : String} {now : Int} {m : IpHistory}
    (h : (isAllowed k now m).1 = false) :
    (isAllowed k now m).2 = afterCompaction m k now := by
  rw [isAllowed_eq] at h ⊢
  split
  · rfl
  · rename_i hn
    simp [hn] at h

theorem isAllowed_snd_of_admitted {k : String} {now : Int} {m : IpHistory}
    (h : (isAllowed k now m).1 = true) :
    (isAllowed k now m).2 = mapAssign (afterCompaction m k now) k
      ⟨(trimmedOf m k now).timestamps ++ [now]⟩ := by
  rw [isAllowed_eq] at h ⊢
  split
  · rename_i hn
    simp [hn] at h
  · rfl

theorem afterCompaction_eq (m : IpHistory) (k : String) (now : Int) :
    afterCompaction m k now =
      if Compacts m k then
        cleanupStaleEntries now (mapAssign (mapSubscript m k) k (trimmedOf m k now))
      else mapAssign (mapSubscript m k) k (trimmedOf m k now) := by
  unfold afterCompaction Compacts
  simp only [mapSize_mapAssign]

theorem compactEntry_trimmedOf (m : IpHistory) (k : String) (now : Int) :
    compactEntry now (trimmedOf m k now) =
      if (trimmedOf m k now).timestamps.isEmpty then none else some (trimmedOf m k now) := by
  unfold compactEntry trimmedOf
  rw [cleanup_idem]

theorem uniqueKeys_afterCompaction {m : IpHistory} (hu : UniqueKeys m) (k : String)
    (now : Int) : UniqueKeys (afterCompaction m k now) := by
  rw [afterCompaction_eq]
  have h2 := uniqueKeys_mapAssign (uniqueKeys_mapSubscript hu k) k (trimmedOf m k now)
  split
  · exact uniqueKeys_cleanupStaleEntries h2 now
  · exact h2

/-- The key's own node after the trim and the conditional compaction pass. -/
theorem mapFind_afterCompaction_self {m : IpHistory} (hu : UniqueKeys m) (k : String)
    (now : Int) :
    mapFind (afterCompaction m k now) k =
      if Compacts m k ∧ (trimmedOf m k now).timestamps.isEmpty then none
      else some (trimmedOf m k now) := by
  have h2 := uniqueKeys_mapAssign (uniqueKeys_mapSubscript hu k) k (trimmedOf m k now)
  have hf2 : mapFind (mapAssign (mapSubscript m k) k (trimmedOf m k now)) k
      = some (trimmedOf m k now) := by
    rw [mapFind_mapAssign_self, mapFind_mapSubscript_self]; rfl
  rw [afterCompaction_eq]
  by_cases hc : Compacts m k
  · rw [if_pos hc, mapFind_cleanupStaleEntries h2, hf2, Option.some_bind,
      compactEntry_trimmedOf]
    by_cases he : (trimmedOf m k now).timestamps.isEmpty = true
    · simp [he, hc]
    · simp [he]
  · rw [if_neg hc, hf2]
    simp [hc]

/-- The nodes of the other keys after the trim and the conditional compaction
pass. -/
theorem mapFind_afterCompaction_ne {m : IpHistory} (hu : UniqueKeys m) {k k' : String}
    (hne : k' ≠ k) (now : Int) :
    mapFind (afterCompaction m k now) k' =
      if Compacts m k then (mapFind m k').bind (compactEntry now) else mapFind m k' := by
  have h2 := uniqueKeys_mapAssign (uniqueKeys_mapSubscript hu k) k (trimmedOf m k now)
  have hf2 : mapFind (mapAssign (mapSubscript m k) k (trimmedOf m k now)) k'
      = mapFind m k' := by
    rw [mapFind_mapAssign_ne _ _ hne, mapFind_mapSubscript_ne _ hne]
  rw [afterCompaction_eq]
  by_cases hc : Compacts m k
  · rw [if_pos hc, if_pos hc, mapFind_cleanupStaleEntries h2, hf2]
  · rw [if_neg hc, if_neg hc, hf2]

/-- The key's node after the whole call. -/
theorem mapFind_isAllowed_self {m : IpHistory} (hu : UniqueKeys m) (k : String) (now : Int) :
    mapFind (isAllowed k now m).2 k =
      if Compacts m k ∧ (trimmedOf m k now).timestamps.isEmpty then none
      else if (isAllowed k now m).1 then
        some ⟨(trimmedOf m k now).timestamps ++ [now]⟩
      else some (trimmedOf m k now) := by
  cases hr : (isAllowed k now m).1 with
  | false =>
    rw [isAllowed_snd_of_denied hr, mapFind_afterCompaction_self hu]
    simp
  | true =>
    rw [isAllowed_snd_of_admitted hr, mapFind_mapAssign_self,
      mapFind_afterCompaction_self hu]
    split <;> simp

/-- The state update of one call: a denied call leaves exactly the trimmed
sequence, in every state; an admitted call leaves the trimmed sequence with the
admission time appended, unless the compaction pass ran on an empty trimmed
sequence and erased the key's node. -/
theorem isAllowed_state_update {m : IpHistory} (hu : UniqueKeys m) (k : String) (now : Int) :
    ((isAllowed k now m).1 = false →
        mapFind (isAllowed k now m).2 k = some (trimmedOf m k now)) ∧
      ((isAllowed k now m).1 = true →
        ¬ (Compacts m k ∧ (trimmedOf m k now).timestamps.isEmpty) →
        mapFind (isAllowed k now m).2 k
          = some ⟨(trimmedOf m k now).timestamps ++ [now]⟩) := by
  constructor
  · intro hden
    have hlen : ¬ (trimmedOf m k now).timestamps.length < 10 := by
      rw [isAllowed_fst] at hden
      simpa using hden
    have hne : ¬ (Compacts m k ∧ (trimmedOf m k now).timestamps.isEmpty) := by
      rintro ⟨-, he⟩
      rw [List.isEmpty_iff] at he
      rw [he] at hlen
      exact hlen (by decide)
    rw [mapFind_isAllowed_self hu, if_neg hne, hden]
    rfl
  · intro hadm hne
    rw [mapFind_isAllowed_self hu, if_neg hne, hadm]
    rfl

/-- The nodes of the other keys after the whole call. -/
theorem mapFind_isAllowed_ne {m : IpHistory} (hu : UniqueKeys m) {k k' : String}
    (hne : k' ≠ k) (now : Int) :
    mapFind (isAllowed k now m).2 k' =
      if Compacts m k then (mapFind m k').bind (compactEntry now) else mapFind m k' := by
  cases hr : (isAllowed k now m).1 with
  | false => rw [isAllowed_snd_of_denied hr, mapFind_afterCompaction_ne hu hne]
  | true =>
    rw [isAllowed_snd_of_admitted hr, mapFind_mapAssign_ne _ _ hne,
      mapFind_afterCompaction_ne hu hne]

theorem uniqueKeys_isAllowed {m : IpHistory} (hu : UniqueKeys m) (k : String) (now : Int) :
    UniqueKeys (isAllowed k now m).2 := by
  cases hr : (isAllowed k now m).1 with
  | false =>
    rw [isAllowed_snd_of_denied hr]
    exact uniqueKeys_afterCompaction hu k now
  | true =>
    rw [isAllowed_snd_of_admitted hr]
    exact uniqueKeys_mapAssign (uniqueKeys_afterCompaction hu k now) _ _

/-! ## RateLimiter: what one `getRemainingRequests` call does -/

theorem getRemainingRequests_fst (k : String) (now : Int) (m : IpHistory) :
    (getRemainingRequests k now m).1 =
      match mapFind m k with
      | none => MAX_REQUESTS_PER_WINDOW
      | some h => MAX_REQUESTS_PER_WINDOW - ((cleanup now h).timestamps.length : Int) := by
  unfold getRemainingRequests
  cases mapFind m k <;> rfl

theorem getRemainingRequests_snd (k : String) (now : Int) (m : IpHistory) :
    (getRemainingRequests k now m).2 = mapAssign m k (trimmedOf m k now) := by
  unfold getRemainingRequests
  cases hf : mapFind m k with
  | none =>
    have hk : k ∉ keys m := not_mem_keys_of_mapFind_none hf
    simp only
    rw [mapAssign_of_not_mem _ hk]
  | some h =>
    simp only [trimmedOf, histOf, hf, Option.getD_some]

theorem mapFind_getRemainingRequests_self (k : String) (now : Int) (m : IpHistory) :
    mapFind (getRemainingRequests k now m).2 k = (mapFind m k).map (cleanup now) := by
  rw [getRemainingRequests_snd, mapFind_mapAssign_self]
  cases hf : mapFind m k with
  | none => rfl
  | some h => simp [trimmedOf, histOf, hf]

theorem mapFind_getRemainingRequests_ne {k k' : String} (hne : k' ≠ k) (now : Int)
    (m : IpHistory) :
    mapFind (getRemainingRequests k now m).2 k' = mapFind m k' := by
  rw [getRemainingRequests_snd, mapFind_mapAssign_ne _ _ hne]

theorem uniqueKeys_getRemainingRequests {m : IpHistory} (hu : UniqueKeys m) (k : String)
    (now : Int) : UniqueKeys (getRemainingRequests k now m).2 := by
  rw [getRemainingRequests_snd]
  exact uniqueKeys_mapAssign hu _ _

/-! ## RateLimiter: the invariant of the reachable states -/

theorem goodHistory_nil (t : Int) : GoodHistory t ⟨[]⟩ := by
  simp [GoodHistory]

theorem goodHistory_mono {t t' : Int} {h : RequestHistory} (hg : GoodHistory t h)
    (hle : t ≤ t') : GoodHistory t' h :=
  ⟨hg.1, fun x hx => le_trans (hg.2.1 x hx) hle, hg.2.2⟩

theorem goodHistory_cleanup {t : Int} {h : RequestHistory} (hg : GoodHistory t h)
    (now : Int) : GoodHistory t (cleanup now h) :=
  ⟨popOld_pairwise hg.1, fun x hx => hg.2.1 x (popOld_subset hx),
    le_trans (popOld_length_le _ _) hg.2.2⟩

theorem goodHistory_push {now : Int} {h : RequestHistory} (hg : GoodHistory now h)
    (hlen : h.timestamps.length < 10) : GoodHistory now ⟨h.timestamps ++ [now]⟩ := by
  refine ⟨?_, ?_, ?_⟩
  · simp only [List.pairwise_append, List.pairwise_singleton, List.mem_singleton, true_and]
    exact ⟨hg.1, fun a ha b hb => hb ▸ hg.2.1 a ha⟩
  · intro x hx
    simp only [List.mem_append, List.mem_singleton] at hx
    rcases hx with hx | hx
    · exact hg.2.1 x hx
    · exact le_of_eq hx
  · simp only [List.length_append, List.length_singleton]
    omega

theorem goodHistory_histOf {m : IpHistory} {t : Int} (hi : Inv m t) (k : String) :
    GoodHistory t (histOf m k) := by
  unfold histOf
  cases hf : mapFind m k with
  | none => exact goodHistory_nil t
  | some h => exact hi.2 (k, h) (mapFind_mem hf)

theorem goodHistory_trimmedOf {m : IpHistory} {t : Int} (hi : Inv m t) (k : String)
    (now : Int) : GoodHistory t (trimmedOf m k now) :=
  goodHistory_cleanup (goodHistory_histOf hi k) now

theorem good_afterCompaction {m : IpHistory} {t : Int} (hi : Inv m t) (k : String)
    (now : Int) : ∀ e ∈ afterCompaction m k now, GoodHistory t e.2 := by
  have h2 : ∀ e ∈ mapAssign (mapSubscript m k) k (trimmedOf m k now), GoodHistory t e.2 := by
    intro e he
    rcases mem_mapAssign he with h1 | h1
    · rcases mem_mapSubscript h1 with h0 | h0
      · exact hi.2 e h0
      · rw [h0]; exact goodHistory_nil t
    · rw [h1.1]; exact goodHistory_trimmedOf hi k now
  rw [afterCompaction_eq]
  split
  · rintro ⟨k', h'⟩ he
    obtain ⟨h0, hin, hc⟩ := mem_cleanupStaleEntries.1 he
    unfold compactEntry at hc
    split at hc
    · cases hc
    · simp only [Option.some.injEq] at hc
      rw [← hc]
      exact goodHistory_cleanup (h2 _ hin) now
  · exact h2

theorem inv_isAllowed {m : IpHistory} {t : Int} (hi : Inv m t) (k : String) {now : Int}
    (hle : t ≤ now) : Inv (isAllowed k now m).2 now := by
  refine ⟨uniqueKeys_isAllowed hi.1 k now, ?_⟩
  cases hr : (isAllowed k now m).1 with
  | false =>
    rw [isAllowed_snd_of_denied hr]
    exact fun e he => goodHistory_mono (good_afterCompaction hi k now e he) hle
  | true =>
    rw [isAllowed_snd_of_admitted hr]
    intro e he
    rcases mem_mapAssign he with h1 | h1
    · exact goodHistory_mono (good_afterCompaction hi k now e h1) hle
    · rw [h1.1]
      apply goodHistory_push (goodHistory_mono (goodHistory_trimmedOf hi k now) hle)
      rw [isAllowed_fst] at hr
      simpa using hr

theorem inv_getRemainingRequests {m : IpHistory} {t : Int} (hi : Inv m t) (k : String)
    {now : Int} (hle : t ≤ now) : Inv (getRemainingRequests k now m).2 now := by
  refine ⟨uniqueKeys_getRemainingRequests hi.1 k now, ?_⟩
  rw [getRemainingRequests_snd]
  intro e he
  rcases mem_mapAssign he with h1 | h1
  · exact goodHistory_mono (hi.2 e h1) hle
  · rw [h1.1]
    exact goodHistory_mono (goodHistory_trimmedOf hi k now) hle

theorem inv_of_reachable {m : IpHistory} {t : Int} (hr : Reachable m t) : Inv m t := by
  induction hr with
  | init t => exact ⟨List.nodup_nil, fun e he => by cases he⟩
  | allowed k now _ hle ih => exact inv_isAllowed ih k hle
  | remaining k now _ hle ih => exact inv_getRemainingRequests ih k hle

/-! ## RateLimiter: the limiter holding 1000 keys -/

theorem busyKey_injective {i j : Nat} (h : busyKey i = busyKey j) : i = j := by
  have h1 : List.replicate (i + 1) 'a' = List.replicate (j + 1) 'a' :=
    congrArg String.data h
  have h2 := congrArg List.length h1
  simpa using h2

theorem busyKey_ne_b (i : Nat) : busyKey i ≠ "b" := by
  intro h
  have h1 : List.replicate (i + 1) 'a' = ['b'] := congrArg String.data h
  rw [List.replicate_succ] at h1
  have h2 := (List.cons.inj h1).1
  exact absurd h2 (by decide)

theorem busyUpTo_succ (n : Nat) :
    busyUpTo (n + 1) = busyUpTo n ++ [(busyKey n, ⟨[0]⟩)] := by
  simp [busyUpTo, List.range_succ]

theorem mapSize_busyUpTo (n : Nat) : mapSize (busyUpTo n) = n := by
  simp [mapSize, busyUpTo]

theorem keys_busyUpTo (n : Nat) : keys (busyUpTo n) = (List.range n).map busyKey := by
  simp [keys, busyUpTo, Function.comp_def]

theorem mapFind_busyUpTo_none {n : Nat} {k : String} (hk : ∀ i, i < n → busyKey i ≠ k) :
    mapFind (busyUpTo n) k = none := by
  apply mapFind_eq_none_of_not_mem
  rw [keys_busyUpTo]
  intro hmem
  obtain ⟨i, hi, hik⟩ := List.mem_map.1 hmem
  exact hk i (List.mem_range.1 hi) hik

theorem uniqueKeys_busyUpTo (n : Nat) : UniqueKeys (busyUpTo n) := by
  unfold UniqueKeys
  rw [keys_busyUpTo]
  exact List.Nodup.map (fun _ _ h => busyKey_injective h) (List.nodup_range n)

theorem mapAssign_append (m n : IpHistory) (k : String) (h : RequestHistory) :
    mapAssign (m ++ n) k h = mapAssign m k h ++ mapAssign n k h := by
  induction m with
  | nil => rfl
  | cons e0 rest ih =>
    obtain ⟨k0, h0⟩ := e0
    by_cases hk : k0 = k
    · simp [mapAssign, hk, ih]
    · simp [mapAssign, hk, ih]

/-- A first call for a key without a node, when no compaction pass runs: the
admission is recorded in a new node. -/
theorem isAllowed_fresh_of_not_compacts {m : IpHistory} {k : String} (now : Int)
    (hf : mapFind m k = none) (hc : ¬ Compacts m k) :
    isAllowed k now m = (true, m ++ [(k, ⟨[now]⟩)]) := by
  have hk : k ∉ keys m := not_mem_keys_of_mapFind_none hf
  have htr : trimmedOf m k now = ⟨[]⟩ := by
    simp [trimmedOf, histOf, hf, cleanup, popOld]
  have hsub : mapSubscript m k = m ++ [(k, ⟨[]⟩)] := by
    simp [mapSubscript, hf]
  rw [isAllowed_eq, afterCompaction_eq, if_neg hc, htr, hsub]
  simp [MAX_REQUESTS_PER_WINDOW, mapAssign_append, mapAssign_of_not_mem _ hk, mapAssign]

/-- A first call for a key without a node, when the compaction pass runs: the
call is admitted, the node created by the subscript is erased by the pass, and
nothing is recorded. -/
theorem isAllowed_fresh_of_compacts {m : IpHistory} {k : String} (now : Int)
    (hf : mapFind m k = none) (hc : Compacts m k) :
    isAllowed k now m = (true, cleanupStaleEntries now m) := by
  have hk : k ∉ keys m := not_mem_keys_of_mapFind_none hf
  have hk' : k ∉ keys (cleanupStaleEntries now m) :=
    fun h => hk ((keys_cleanupStaleEntries_sublist now m).subset h)
  have htr : trimmedOf m k now = ⟨[]⟩ := by
    simp [trimmedOf, histOf, hf, cleanup, popOld]
  have hsub : mapSubscript m k = m ++ [(k, ⟨[]⟩)] := by
    simp [mapSubscript, hf]
  have hone : cleanupStaleEntries now [(k, (⟨[]⟩ : RequestHistory))] = [] := by
    simp [cleanupStaleEntries, cleanup, popOld]
  rw [isAllowed_eq, afterCompaction_eq, if_pos hc, htr, hsub]
  simp [MAX_REQUESTS_PER_WINDOW, mapAssign_append, mapAssign_of_not_mem _ hk, mapAssign,
    cleanupStaleEntries_append, hone, mapAssign_of_not_mem _ hk']

theorem reachable_busyUpTo {n : Nat} (hn : n ≤ 1000) : Reachable (busyUpTo n) 0 := by
  induction n with
  | zero => exact Reachable.init 0
  | succ n ih =>
    have hf : mapFind (busyUpTo n) (busyKey n) = none :=
      mapFind_busyUpTo_none (fun i hi h => by
        have := busyKey_injective h
        omega)
    have hc : ¬ Compacts (busyUpTo n) (busyKey n) := by
      simp only [Compacts, mapSubscript, hf, mapSize, List.length_append, List.length_singleton]
      have := mapSize_busyUpTo n
      simp only [mapSize] at this
      omega
    have hstep := isAllowed_fresh_of_not_compacts 0 hf hc
    have hr := Reachable.allowed (busyKey n) 0 (ih (by omega)) (le_refl 0)
    rw [hstep] at hr
    rw [busyUpTo_succ]
    exact hr

/-- The busy limiter is a state of the running service: it is reached from the
empty limiter by one admitted call for each of 1000 client keys. -/
theorem reachable_busyLimiter : Reachable busyLimiter 0 :=
  reachable_busyUpTo (le_refl 1000)

theorem mapFind_busyLimiter_b : mapFind busyLimiter "b" = none :=
  mapFind_busyUpTo_none (fun i _ => busyKey_ne_b i)

theorem compacts_busyLimiter_b : Compacts busyLimiter "b" := by
  simp only [Compacts, mapSubscript, mapFind_busyLimiter_b, mapSize, List.length_append,
    List.length_singleton]
  have := mapSize_busyUpTo 1000
  simp only [mapSize] at this
  unfold busyLimiter
  omega

theorem cleanupStaleEntries_busyLimiter {now : Int} (hnow : now ≤ TIME_WINDOW) :
    cleanupStaleEntries now busyLimiter = busyLimiter := by
  apply cleanupStaleEntries_eq_self
  intro e he
  obtain ⟨i, -, rfl⟩ := List.mem_map.1 he
  exact ⟨0, [], rfl, by omega⟩

/-- Any call for the key "b" on the busy limiter inside the first window is
admitted and leaves the limiter as it was. -/
theorem isAllowed_busyLimiter_b (now : Int) (hnow : now ≤ TIME_WINDOW) :
    isAllowed "b" now busyLimiter = (true, busyLimiter) := by
  rw [isAllowed_fresh_of_compacts now mapFind_busyLimiter_b compacts_busyLimiter_b,
    cleanupStaleEntries_busyLimiter hnow]

theorem runAllowed_busyLimiter_b (ts : List Int) (hts : ∀ t ∈ ts, t ≤ TIME_WINDOW) :
    runAllowed "b" ts busyLimiter = (ts.map (fun _ => true), busyLimiter) := by
  induction ts with
  | nil => rfl
  | cons t rest ih =>
    have h1 := isAllowed_busyLimiter_b t (hts t (List.mem_cons_self _ _))
    have h2 := ih (fun x hx => hts x (List.mem_cons_of_mem _ hx))
    simp only [runAllowed, h1, h2, List.map_cons]

theorem timeWindow_nonneg : 0 ≤ TIME_WINDOW := by
  unfold TIME_WINDOW; omega

/-- The stored history of the key after a call, in every case. -/
theorem histOf_isAllowed_self {m : IpHistory} (hu : UniqueKeys m) (k : String) (now : Int) :
    histOf (isAllowed k now m).2 k = ⟨[]⟩ ∨
      histOf (isAllowed k now m).2 k = trimmedOf m k now ∨
      histOf (isAllowed k now m).2 k = ⟨(trimmedOf m k now).timestamps ++ [now]⟩ := by
  unfold histOf
  rw [mapFind_isAllowed_self hu]
  split
  · exact Or.inl rfl
  · split
    · exact Or.inr (Or.inr rfl)
    · exact Or.inr (Or.inl rfl)

/-! ## RateLimiter: the specified properties -/

/-- The decision of `isAllowed` as defined here, in every state reachable
from the empty limiter: the result is true exactly when fewer than N = 10 of
the admissions recorded for the key are not older than `now - W`, and after the
call no entry older than `now - W` is left in the key's sequence.  For a call
with defined behaviour this is the decision of the code; for a call whose node
the compaction pass erases it is the decision of the build described at
`isAllowed`. -/
theorem isAllowed_decision {m : IpHistory} {t : Int} (hr : Reachable m t) (key : String)
    (now : Int) :
    ((isAllowed key now m).1 = true ↔
      (((histOf m key).timestamps.filter
          (fun ts => decide (now - TIME_WINDOW ≤ ts))).length : Int)
        < MAX_REQUESTS_PER_WINDOW) ∧
    ∀ ts ∈ (histOf (isAllowed key now m).2 key).timestamps, now - TIME_WINDOW ≤ ts := by
  have hi := inv_of_reachable hr
  have hsorted := (goodHistory_histOf hi key).1
  have htr : (trimmedOf m key now).timestamps
      = (histOf m key).timestamps.filter (fun ts => decide (now - TIME_WINDOW ≤ ts)) := by
    simp only [trimmedOf, cleanup]
    exact popOld_eq_filter hsorted
  have hge : ∀ ts ∈ (trimmedOf m key now).timestamps, now - TIME_WINDOW ≤ ts := by
    intro ts hts
    rw [htr, List.mem_filter] at hts
    simpa using hts.2
  constructor
  · rw [isAllowed_fst, ← htr]
    simp only [decide_eq_true_eq, MAX_REQUESTS_PER_WINDOW]
    omega
  · intro ts hts
    rcases histOf_isAllowed_self hi.1 key now with h | h | h
    · rw [h] at hts; cases hts
    · rw [h] at hts; exact hge ts hts
    · rw [h] at hts
      simp only [List.mem_append, List.mem_singleton] at hts
      rcases hts with hts | hts
      · exact hge ts hts
      · have := timeWindow_nonneg
        omega

/-- C2, at the failing input: on the limiter holding 1000 client keys, a call
for a key without a node is admitted (returns true), yet after the call the key
has no node: the compaction pass erased the node the admission was meant for. -/
theorem isAllowed_compaction_drops_admission :
    UniqueKeys busyLimiter ∧ Compacts busyLimiter "b" ∧
      (isAllowed "b" 1 busyLimiter).1 = true ∧
      mapFind (isAllowed "b" 1 busyLimiter).2 "b" = none := by
  have h := isAllowed_busyLimiter_b 1 (by unfold TIME_WINDOW; omega)
  have h1 : (isAllowed "b" 1 busyLimiter).1 = true := by rw [h]
  have h2 : (isAllowed "b" 1 busyLimiter).2 = busyLimiter := by rw [h]
  refine ⟨uniqueKeys_busyUpTo 1000, compacts_busyLimiter_b, h1, ?_⟩
  rw [h2]
  exact mapFind_busyLimiter_b

/-- C3, at the failing input: on the limiter holding 1000 client keys, eleven
consecutive calls for a key with no history, one clock tick apart, all return
true; the eleventh is not denied. -/
theorem eleven_calls_all_admitted :
    mapFind busyLimiter "b" = none ∧
      (runAllowed "b" [1, 2, 3, 4, 5, 6, 7, 8, 9, 10, 11] busyLimiter).1
        = [true, true, true, true, true, true, true, true, true, true, true] := by
  refine ⟨mapFind_busyLimiter_b, ?_⟩
  rw [runAllowed_busyLimiter_b]
  · rfl
  · decide

/-- C4, at the failing input: on the limiter holding 1000 client keys, ten
consecutive calls for a key with no history are all admitted, and right after
the tenth `getRemainingRequests` still returns 10, not 0. -/
theorem remaining_after_ten_admissions_busy :
    (runAllowed "b" [1, 2, 3, 4, 5, 6, 7, 8, 9, 10] busyLimiter).1
        = [true, true, true, true, true, true, true, true, true, true] ∧
      (getRemainingRequests "b" 10
        (runAllowed "b" [1, 2, 3, 4, 5, 6, 7, 8, 9, 10] busyLimiter).2).1 = 10 := by
  rw [runAllowed_busyLimiter_b]
  · refine ⟨rfl, ?_⟩
    rw [getRemainingRequests_fst, mapFind_busyLimiter_b]
    rfl
  · decide

/-- The bounds of `getRemainingRequests` for the functions as defined here, in
every state reachable from the empty limiter: the value is between 0 and
N = 10 inclusive, and no key stores more than N timestamps.  The states reached
through a call whose node the compaction pass erases are those of the build
described at `isAllowed`. -/
theorem remaining_bounds {m : IpHistory} {t : Int} (hr : Reachable m t) (key : String)
    (now : Int) :
    0 ≤ (getRemainingRequests key now m).1 ∧
      (getRemainingRequests key now m).1 ≤ MAX_REQUESTS_PER_WINDOW ∧
      ∀ e ∈ m, (e.2.timestamps.length : Int) ≤ MAX_REQUESTS_PER_WINDOW := by
  have hi := inv_of_reachable hr
  have hall : ∀ e ∈ m, (e.2.timestamps.length : Int) ≤ MAX_REQUESTS_PER_WINDOW := by
    intro e he
    have := (hi.2 e he).2.2
    unfold MAX_REQUESTS_PER_WINDOW
    omega
  cases hf : mapFind m key with
  | none =>
    have hv : (getRemainingRequests key now m).1 = MAX_REQUESTS_PER_WINDOW := by
      rw [getRemainingRequests_fst, hf]
    rw [hv]
    exact ⟨by decide, le_refl _, hall⟩
  | some h =>
    have hv : (getRemainingRequests key now m).1
        = MAX_REQUESTS_PER_WINDOW - ((cleanup now h).timestamps.length : Int) := by
      rw [getRemainingRequests_fst, hf]
    have h1 := (hi.2 (key, h) (mapFind_mem hf)).2.2
    have h2 := cleanup_length_le now h
    simp only at h1
    rw [hv]
    refine ⟨?_, ?_, hall⟩
    · unfold MAX_REQUESTS_PER_WINDOW; omega
    · unfold MAX_REQUESTS_PER_WINDOW; omega

/-! ## RateLimiter: calls inside one window -/

theorem cleanup_of_head_live {now t0 : Int} (rest : List Int)
    (h : now - TIME_WINDOW ≤ t0) : cleanup now ⟨t0 :: rest⟩ = ⟨t0 :: rest⟩ := by
  simp only [cleanup, popOld_eq_self_of_head rest h]

/-- Inside the window of the oldest retained admission `getRemainingRequests`
counts the whole stored sequence and leaves it as it is. -/
theorem getRemainingRequests_live {m : IpHistory} {k : String} {t0 : Int} {rest : List Int}
    (hf : mapFind m k = some ⟨t0 :: rest⟩) {now : Int} (hw : now - TIME_WINDOW ≤ t0) :
    (getRemainingRequests k now m).1 = MAX_REQUESTS_PER_WINDOW - ((rest.length : Int) + 1) ∧
      mapFind (getRemainingRequests k now m).2 k = some ⟨t0 :: rest⟩ := by
  constructor
  · rw [getRemainingRequests_fst, hf]
    simp only [cleanup_of_head_live rest hw, List.length_cons, Nat.cast_add, Nat.cast_one]
  · rw [mapFind_getRemainingRequests_self, hf]
    simp only [Option.map_some', cleanup_of_head_live rest hw]

/-- Inside the window of the oldest retained admission `isAllowed` decides on
the whole stored sequence and appends the admission to it. -/
theorem isAllowed_live {m : IpHistory} (hu : UniqueKeys m) {k : String} {t0 : Int}
    {rest : List Int} (hf : mapFind m k = some ⟨t0 :: rest⟩) {now : Int}
    (hw : now - TIME_WINDOW ≤ t0) :
    (isAllowed k now m).1 = decide (rest.length + 1 < 10) ∧
      mapFind (isAllowed k now m).2 k
        = some ⟨t0 :: (rest ++ if (isAllowed k now m).1 then [now] else [])⟩ := by
  have htr : trimmedOf m k now = ⟨t0 :: rest⟩ := by
    simp only [trimmedOf, histOf, hf, Option.getD_some, cleanup_of_head_live rest hw]
  constructor
  · rw [isAllowed_fst, htr]
    simp only [List.length_cons]
  · rw [mapFind_isAllowed_self hu, htr]
    simp only [List.isEmpty_cons, Bool.false_eq_true, and_false, if_false]
    cases (isAllowed k now m).1 <;> simp

/-- C6: for a key whose oldest retained admission is `t0`, along every sequence
of `isAllowed(key)` calls whose clock readings all lie within one window
length W of `t0`, each call yields one observation, and in each observation
the value of `getRemainingRequests(key)` after the call is at most the value
before it: exactly one less on an admitted call, equal on a denied call. -/
theorem remaining_monotone (key : String) (t0 : Int) (calls : List (Int × Int × Int))
    (hwin : ∀ c ∈ calls,
      c.1 - TIME_WINDOW ≤ t0 ∧ c.2.1 - TIME_WINDOW ≤ t0 ∧ c.2.2 - TIME_WINDOW ≤ t0)
    (m : IpHistory) (hu : UniqueKeys m) (rest : List Int)
    (hf : mapFind m key = some ⟨t0 :: rest⟩) :
    (observeCalls key calls m).length = calls.length ∧
    ∀ o ∈ observeCalls key calls m,
      o.after ≤ o.before ∧
      (o.admitted = true → o.after = o.before - 1) ∧
      (o.admitted = false → o.after = o.before) := by
  induction calls generalizing m rest with
  | nil => exact ⟨rfl, fun o ho => by cases ho⟩
  | cons c cs ih =>
    obtain ⟨tb, tc, ta⟩ := c
    obtain ⟨hb, hc, ha⟩ := hwin (tb, tc, ta) (List.mem_cons_self _ _)
    simp only at hb hc ha
    have hwin' : ∀ c ∈ cs,
        c.1 - TIME_WINDOW ≤ t0 ∧ c.2.1 - TIME_WINDOW ≤ t0 ∧ c.2.2 - TIME_WINDOW ≤ t0 :=
      fun c hc => hwin c (List.mem_cons_of_mem _ hc)
    -- the observation before the call
    obtain ⟨hb1, hb2⟩ := getRemainingRequests_live hf hb
    have hub := uniqueKeys_getRemainingRequests hu key tb
    -- the call
    obtain ⟨hr1, hr2⟩ := isAllowed_live hub hb2 hc
    have hur := uniqueKeys_isAllowed hub key tc
    -- the observation after the call
    obtain ⟨ha1, ha2⟩ := getRemainingRequests_live hr2 ha
    have hua := uniqueKeys_getRemainingRequests hur key ta
    obtain ⟨ihlen, ihobs⟩ := ih hwin' _ hua _ ha2
    constructor
    · simp only [observeCalls, List.length_cons, ihlen]
    · intro o ho
      simp only [observeCalls, List.mem_cons] at ho
      rcases ho with ho | ho
      · subst ho
        simp only
        rw [ha1, hb1]
        cases hadm : (isAllowed key tc (getRemainingRequests key tb m).2).1 with
        | true =>
          simp only [if_true, List.length_append, List.length_singleton, Nat.cast_add,
            Nat.cast_one]
          refine ⟨by omega, fun _ => by omega, fun h => by cases h⟩
        | false =>
          simp
      · exact ihobs o ho

/-- Witness of C6: a key with one admission at time 0, observed around two
calls at times 1 and 2. -/
theorem remaining_monotone_witness :
    (observeCalls "10.0.0.1" [(1, 1, 1), (2, 2, 2)] [("10.0.0.1", ⟨[0]⟩)]).length
      = [((1 : Int), (1 : Int), (1 : Int)), (2, 2, 2)].length ∧
    ∀ o ∈ observeCalls "10.0.0.1" [(1, 1, 1), (2, 2, 2)] [("10.0.0.1", ⟨[0]⟩)],
      o.after ≤ o.before ∧
      (o.admitted = true → o.after = o.before - 1) ∧
      (o.admitted = false → o.after = o.before) :=
  remaining_monotone "10.0.0.1" 0 [(1, 1, 1), (2, 2, 2)]
    (by decide) [("10.0.0.1", ⟨[0]⟩)] (by decide) [] (by decide)

/-- Consecutive calls inside the window of the oldest retained admission: the
call number `i` (from 0) is admitted exactly when the stored sequence, which
grows by one per admission, is still shorter than ten; the admissions are
appended in call order. -/
theorem runAllowed_live (k : String) (t0 : Int) (ts : List Int)
    (hwin : ∀ t ∈ ts, t - TIME_WINDOW ≤ t0) (m : IpHistory) (hu : UniqueKeys m)
    (rest : List Int) (hf : mapFind m k = some ⟨t0 :: rest⟩) :
    (runAllowed k ts m).1
        = (List.range ts.length).map (fun i => decide (rest.length + 1 + i < 10)) ∧
      mapFind (runAllowed k ts m).2 k
        = some ⟨t0 :: (rest ++ ts.take (10 - (rest.length + 1)))⟩ := by
  induction ts generalizing m rest with
  | nil => simp [runAllowed, hf]
  | cons t ts ih =>
    obtain ⟨h1, h2⟩ := isAllowed_live hu hf (hwin t (List.mem_cons_self _ _))
    have hu' := uniqueKeys_isAllowed hu k t
    have hwin' : ∀ x ∈ ts, x - TIME_WINDOW ≤ t0 :=
      fun x hx => hwin x (List.mem_cons_of_mem _ hx)
    by_cases hlt : rest.length + 1 < 10
    · have hadm : (isAllowed k t m).1 = true := by rw [h1]; simpa using hlt
      rw [hadm] at h2
      simp only [if_true] at h2
      obtain ⟨ih1, ih2⟩ := ih hwin' _ hu' _ h2
      constructor
      · simp only [runAllowed, hadm, ih1, List.length_cons, List.range_succ_eq_map,
          List.map_cons, List.map_map, List.length_append, List.length_singleton,
          List.length_nil]
        refine congrArg₂ _ (by simpa using hlt) (List.map_congr_left fun i _ => ?_)
        simp only [Function.comp, Nat.succ_eq_add_one]
        congr 1
        apply propext
        constructor <;> intro h <;> omega
      · simp only [runAllowed, ih2, List.length_append, List.length_singleton]
        have hpos : 10 - (rest.length + 1) = (10 - (rest.length + 1 + 1)) + 1 := by omega
        rw [hpos, List.take_succ_cons, List.append_assoc, List.singleton_append]
    · have hden : (isAllowed k t m).1 = false := by rw [h1]; simpa using hlt
      rw [hden] at h2
      simp only [Bool.false_eq_true, if_false, List.append_nil] at h2
      obtain ⟨ih1, ih2⟩ := ih hwin' _ hu' _ h2
      constructor
      · simp only [runAllowed, hden, ih1, List.length_cons, List.range_succ_eq_map,
          List.map_cons, List.map_map]
        refine congrArg₂ _ (by simpa using hlt) (List.map_congr_left fun i _ => ?_)
        simp only [Function.comp, Nat.succ_eq_add_one]
        congr 1
        apply propext
        constructor <;> intro h <;> omega
      · simp only [runAllowed, ih2]
        have hz : 10 - (rest.length + 1) = 0 := by omega
        simp [hz]

/-- The rate limiter window when no compaction pass erases the key's node: for
a key without a node on a map that stays at or below 1000 keys, eleven
consecutive calls whose clock readings lie within one window of the first are
admitted ten times and then denied, and `getRemainingRequests` returns 0 right
after the tenth admitted call. -/
theorem fresh_key_window_of_not_compacts {m : IpHistory} (hu : UniqueKeys m) {k : String}
    (hf : mapFind m k = none) (hc : ¬ Compacts m k) (t1 : Int) (ts : List Int)
    (hlen : ts.length = 10) (hwin : ∀ t ∈ ts, t - TIME_WINDOW ≤ t1) :
    (runAllowed k (t1 :: ts) m).1
        = [true, true, true, true, true, true, true, true, true, true, false] ∧
      ∀ now, now - TIME_WINDOW ≤ t1 →
        (getRemainingRequests k now (runAllowed k (t1 :: ts.take 9) m).2).1 = 0 := by
  have hstep := isAllowed_fresh_of_not_compacts t1 hf hc
  have hu' : UniqueKeys (m ++ [(k, ⟨[t1]⟩)]) := by
    have := uniqueKeys_isAllowed hu k t1
    rwa [hstep] at this
  have hf' : mapFind (m ++ [(k, ⟨[t1]⟩)]) k = some ⟨t1 :: []⟩ := by
    simp [mapFind_append, hf, mapFind]
  constructor
  · obtain ⟨h1, -⟩ := runAllowed_live k t1 ts hwin _ hu' [] hf'
    simp only [runAllowed, hstep, h1, hlen]
    decide
  · intro now hnow
    have hwin9 : ∀ t ∈ ts.take 9, t - TIME_WINDOW ≤ t1 :=
      fun t ht => hwin t (List.mem_of_mem_take ht)
    obtain ⟨-, h2⟩ := runAllowed_live k t1 (ts.take 9) hwin9 _ hu' [] hf'
    have hstate : (runAllowed k (t1 :: ts.take 9) m).2
        = (runAllowed k (ts.take 9) (m ++ [(k, ⟨[t1]⟩)])).2 := by
      simp only [runAllowed, hstep]
    rw [hstate]
    obtain ⟨hv, -⟩ := getRemainingRequests_live h2 hnow
    rw [hv]
    simp only [List.nil_append, List.length_nil, List.length_take, hlen,
      MAX_REQUESTS_PER_WINDOW]
    decide

/-! ## RateLimiter: window expiry -/

/-- C7, counterexample: ten calls at clock reading 0 are all admitted and
exhaust the quota (an eleventh call at 0 is denied).  At `now = 0 + W`, which
satisfies `now >= last + W`, the ten timestamps are not older than `now - W`,
so none is trimmed: `getRemainingRequests` returns 0 and `isAllowed` still
returns false. -/
theorem window_expiry_fails_at_boundary :
    (runAllowed "10.0.0.1" (List.replicate 10 0) []).1 = List.replicate 10 true ∧
      mapFind exhaustedLimiter "10.0.0.1" = some ⟨List.replicate 10 0⟩ ∧
      (isAllowed "10.0.0.1" 0 exhaustedLimiter).1 = false ∧
      (getRemainingRequests "10.0.0.1" (0 + TIME_WINDOW) exhaustedLimiter).1 = 0 ∧
      (isAllowed "10.0.0.1" (0 + TIME_WINDOW) exhaustedLimiter).1 = false := by
  decide

/-- C7, amended: for a key that has exhausted its quota (ten admissions
recorded, none later than `last`), at every call time `now >= last + W` such
that `now > last + W` or the oldest recorded admission is strictly earlier
than `last`, `getRemainingRequests(key)` evaluated just before the call is
greater than 0 and `isAllowed(key)` returns true again. -/
theorem window_expiry {m : IpHistory} (key : String) (t0 : Int) (rest : List Int)
    (last now : Int)
    (hf : mapFind m key = some ⟨t0 :: rest⟩)
    (hlen : (t0 :: rest).length = 10)
    (hmax : ∀ x ∈ t0 :: rest, x ≤ last)
    (hnow : last + TIME_WINDOW ≤ now)
    (hold : t0 < last ∨ last + TIME_WINDOW < now) :
    0 < (getRemainingRequests key now m).1 ∧
      (isAllowed key now (getRemainingRequests key now m).2).1 = true ∧
      (isAllowed key now m).1 = true := by
  have ht0 : t0 < now - TIME_WINDOW := by
    have := hmax t0 (List.mem_cons_self _ _)
    rcases hold with h | h <;> omega
  have hlt : (cleanup now ⟨t0 :: rest⟩).timestamps.length < 10 := by
    have := popOld_length_lt_of_head rest ht0
    simp only [cleanup]
    omega
  refine ⟨?_, ?_, ?_⟩
  · have hv : (getRemainingRequests key now m).1 = MAX_REQUESTS_PER_WINDOW
        - ((cleanup now ⟨t0 :: rest⟩).timestamps.length : Int) := by
      rw [getRemainingRequests_fst, hf]
    rw [hv]
    unfold MAX_REQUESTS_PER_WINDOW
    omega
  · have hf' := mapFind_getRemainingRequests_self key now m
    rw [hf, Option.map_some'] at hf'
    rw [isAllowed_fst]
    simp only [trimmedOf, histOf, hf', Option.getD_some, cleanup_idem, decide_eq_true_eq]
    exact hlt
  · rw [isAllowed_fst]
    simp only [trimmedOf, histOf, hf, Option.getD_some, decide_eq_true_eq]
    exact hlt

/-- Witness of C7 amended: ten admissions at clock readings 0 to 9, queried at
the boundary `now = 9 + W`. -/
theorem window_expiry_witness :
    0 < (getRemainingRequests "10.0.0.1" (9 + TIME_WINDOW)
          [("10.0.0.1", ⟨[0, 1, 2, 3, 4, 5, 6, 7, 8, 9]⟩)]).1 ∧
      (isAllowed "10.0.0.1" (9 + TIME_WINDOW)
        (getRemainingRequests "10.0.0.1" (9 + TIME_WINDOW)
          [("10.0.0.1", ⟨[0, 1, 2, 3, 4, 5, 6, 7, 8, 9]⟩)]).2).1 = true ∧
      (isAllowed "10.0.0.1" (9 + TIME_WINDOW)
        [("10.0.0.1", ⟨[0, 1, 2, 3, 4, 5, 6, 7, 8, 9]⟩)]).1 = true :=
  window_expiry "10.0.0.1" 0 [1, 2, 3, 4, 5, 6, 7, 8, 9] 9 (9 + TIME_WINDOW)
    (by decide) (by decide) (by decide) (le_refl _) (Or.inl (by decide))

/-! ## RateLimiter: the compaction pass -/

/-- C8: for every limiter map (one node per key) and time `now`, the map after
`cleanupStaleEntries` holds exactly the keys whose sequence is non-empty after
trimming the entries older than `now - W`, each mapped to exactly that trimmed
sequence; a key whose trimmed sequence is empty is removed, and no key with an
empty sequence remains. -/
theorem compaction_result {m : IpHistory} (hu : UniqueKeys m) (now : Int) :
    UniqueKeys (cleanupStaleEntries now m) ∧
      (∀ k h', mapFind (cleanupStaleEntries now m) k = some h' ↔
        ∃ h, mapFind m k = some h ∧ h' = cleanup now h ∧ h'.timestamps ≠ []) ∧
      (∀ k h, mapFind m k = some h → (cleanup now h).timestamps = [] →
        mapFind (cleanupStaleEntries now m) k = none) ∧
      (∀ e ∈ cleanupStaleEntries now m, e.2.timestamps ≠ []) := by
  have hcompact : ∀ h h' : RequestHistory, compactEntry now h = some h' ↔
      (h' = cleanup now h ∧ h'.timestamps ≠ []) := by
    intro h h'
    unfold compactEntry
    by_cases he : (cleanup now h).timestamps.isEmpty = true
    · have he' : (cleanup now h).timestamps = [] := List.isEmpty_iff.1 he
      simp only [he, if_true]
      constructor
      · intro hh; cases hh
      · rintro ⟨rfl, hne⟩; exact absurd he' hne
    · have he' : (cleanup now h).timestamps ≠ [] := fun hh => he (List.isEmpty_iff.2 hh)
      simp only [he, Bool.false_eq_true, if_false, Option.some.injEq]
      constructor
      · rintro rfl; exact ⟨rfl, he'⟩
      · rintro ⟨rfl, -⟩; rfl
  refine ⟨uniqueKeys_cleanupStaleEntries hu now, ?_, ?_, ?_⟩
  · intro k h'
    rw [mapFind_cleanupStaleEntries hu]
    cases hf : mapFind m k with
    | none => simp
    | some h =>
      simp only [Option.some_bind, Option.some.injEq, exists_eq_left']
      exact hcompact h h'
  · intro k h hf hemp
    rw [mapFind_cleanupStaleEntries hu, hf, Option.some_bind]
    simp [compactEntry, hemp]
  · rintro ⟨k, h'⟩ he
    obtain ⟨h0, -, hc⟩ := mem_cleanupStaleEntries.1 he
    exact ((hcompact h0 h').1 hc).2

/-- Witness of C8: a map with one live key and one fully expired key. -/
theorem compaction_result_witness :
    UniqueKeys (cleanupStaleEntries (TIME_WINDOW + 5)
        [("10.0.0.1", ⟨[0, 1]⟩), ("10.0.0.2", ⟨[3, 7]⟩)]) ∧
      (∀ k h', mapFind (cleanupStaleEntries (TIME_WINDOW + 5)
          [("10.0.0.1", ⟨[0, 1]⟩), ("10.0.0.2", ⟨[3, 7]⟩)]) k = some h' ↔
        ∃ h, mapFind [("10.0.0.1", ⟨[0, 1]⟩), ("10.0.0.2", ⟨[3, 7]⟩)] k = some h ∧
          h' = cleanup (TIME_WINDOW + 5) h ∧ h'.timestamps ≠ []) ∧
      (∀ k h, mapFind [("10.0.0.1", ⟨[0, 1]⟩), ("10.0.0.2", ⟨[3, 7]⟩)] k = some h →
        (cleanup (TIME_WINDOW + 5) h).timestamps = [] →
        mapFind (cleanupStaleEntries (TIME_WINDOW + 5)
          [("10.0.0.1", ⟨[0, 1]⟩), ("10.0.0.2", ⟨[3, 7]⟩)]) k = none) ∧
      (∀ e ∈ cleanupStaleEntries (TIME_WINDOW + 5)
          [("10.0.0.1", ⟨[0, 1]⟩), ("10.0.0.2", ⟨[3, 7]⟩)], e.2.timestamps ≠ []) :=
  compaction_result (by decide) (TIME_WINDOW + 5)

/-! ## ConversionManager: lemmas -/

theorem executeTask_exited {status : Nat} (h : status < 256) :
    executeTask (.child (.exited status)) = decide (status = 0) := by
  have h1 : status * 256 % 128 = 0 := by omega
  have h2 : status * 256 / 256 % 256 = status := by omega
  simp only [executeTask, waitStatus, WIFEXITED, WEXITSTATUS, h1, h2, beq_self_eq_true,
    if_true]
  by_cases h0 : status = 0 <;> simp [h0]

theorem executeTask_signaled {sig : Nat} (core : Bool) (h1 : 1 ≤ sig) (h2 : sig < 127) :
    executeTask (.child (.signaled sig core)) = false := by
  have h : ¬ (sig + (if core then 128 else 0)) % 128 = 0 := by
    cases core <;> simp <;> omega
  simp [executeTask, waitStatus, WIFEXITED, h]

theorem workerDequeue_took {s s' : ManagerState} {task : ConversionTask}
    (h : workerDequeue s = (.took task, s')) : s.tasks_ = task :: s'.tasks_ := by
  unfold workerDequeue at h
  split at h
  · cases h
  · split at h
    · cases h
    · split at h
      · cases h
      · rename_i t rest heq
        simp only [Prod.mk.injEq, WorkerStep.took.injEq] at h
        obtain ⟨rfl, rfl⟩ := h
        exact heq

theorem workerDequeue_not_took {s s' : ManagerState} {w : WorkerStep}
    (h : workerDequeue s = (w, s')) (hw : ∀ task, w ≠ .took task) : s' = s := by
  unfold workerDequeue at h
  split at h
  · cases h; rfl
  · split at h
    · cases h; rfl
    · split at h
      · cases h; rfl
      · rename_i t rest heq
        simp only [Prod.mk.injEq] at h
        exact absurd h.1.symm (hw t)

theorem queueInv_step {tr : QueueTrace} (hi : QueueInv tr) (e : QueueEvent) :
    QueueInv (queueStep tr e) := by
  unfold QueueInv at hi ⊢
  cases e with
  | submit args inputFilename outputFilename callback =>
    simp only [queueStep, addTask, hi, List.append_assoc]
  | dequeue =>
    simp only [queueStep]
    cases hw : workerDequeue tr.state with
    | mk w s' =>
      cases w with
      | waiting =>
        have := workerDequeue_not_took hw (fun t h => by cases h)
        simp only [hi, this]
      | exited =>
        have := workerDequeue_not_took hw (fun t h => by cases h)
        simp only [hi, this]
      | took task =>
        have := workerDequeue_took hw
        simp only [hi, this, List.append_assoc, List.singleton_append]
  | stop => simp only [queueStep, hi]

theorem queueInv_run {tr : QueueTrace} (hi : QueueInv tr) (events : List QueueEvent) :
    QueueInv (runQueue tr events) := by
  induction events generalizing tr with
  | nil => exact hi
  | cons e es ih => exact ih (queueInv_step hi e)

/-! ## ConversionManager: the specified properties -/

/-- The decoding of the wait status: when `waitpid` has returned, the boolean
is true exactly for a child that exited normally with exit status 0; it is
false for a failed `fork`, for a non-zero exit status and for a child
terminated by a signal. -/
theorem executeTask_mapping (r : ForkResult) (hv : r.Valid) :
    (executeTask r = true ↔ r = .child (.exited 0)) ∧
      executeTask .failed = false ∧
      (∀ status, 0 < status → status < 256 →
        executeTask (.child (.exited status)) = false) ∧
      (∀ sig core, 1 ≤ sig → sig < 127 →
        executeTask (.child (.signaled sig core)) = false) := by
  refine ⟨?_, rfl, ?_, ?_⟩
  · cases r with
    | failed => simp [executeTask]
    | child fate =>
      cases fate with
      | exited status =>
        rw [executeTask_exited hv]
        simp
      | signaled sig core =>
        rw [executeTask_signaled core hv.1 hv.2]
        simp
  · intro status h0 h1
    rw [executeTask_exited h1]
    simp
    omega
  · intro sig core h1 h2
    exact executeTask_signaled core h1 h2

theorem joinInChild_not_exited (env : ChildEnv) (workers : List Nat)
    (hself : env.self ∈ workers) (status : Nat) :
    joinInChild env workers ≠ some (.exited status) := by
  induction workers with
  | nil => cases hself
  | cons w rest ih =>
    by_cases hw : w = env.self
    · simp [joinInChild, hw]
    · have hrest : env.self ∈ rest := by
        rcases List.mem_cons.1 hself with h | h
        · exact absurd h.symm hw
        · exact h
      cases hm : env.missingJoin with
      | returns =>
        simp only [joinInChild, hw, if_false, hm]
        exact ih hrest
      | killed sig => simp [joinInChild, hw, hm]
      | neverReturns => simp [joinInChild, hw, hm]

/-- After a failed `execvp` in a child forked by a worker of the pool, the
child never ends with a normal exit: the destructor reaches the join on the
calling thread at the latest. -/
theorem exitInChild_not_exited (poolSize : Nat) (env : ChildEnv)
    (hself : env.self < poolSize) (status : Nat) :
    exitInChild poolSize env ≠ some (.exited status) := by
  unfold exitInChild
  split
  · intro h; cases h
  · exact joinInChild_not_exited env _ (List.mem_range.2 hself) status

theorem waitResult_execFailed (poolSize : Nat) (env : ChildEnv) :
    waitResult poolSize (.execFailed env) = (exitInChild poolSize env).map .child := rfl

/-- C9, at the failing input: when the executable of a job cannot be launched,
`execvp` returns and the child runs `exit(1)`, which runs `~ConversionManager`
in the child.  In a pool of two workers, whichever worker forked and whatever
the joins on the missing threads and the mutex do, the worker never sees a
child that exited normally with status 1.  A child forked by the first worker
is killed by `SIGABRT`; a child forked by the second worker whose join on the
first never returns does not end, so `waitpid` does not return and the worker
reports no boolean at all. -/
theorem exec_failure_outcome :
    (∀ held missing core,
        waitResult 2 (.execFailed ⟨0, held, missing, core⟩) ≠ some (.child (.exited 1)) ∧
        waitResult 2 (.execFailed ⟨1, held, missing, core⟩) ≠ some (.child (.exited 1))) ∧
      waitResult 2 (.execFailed ⟨0, false, .returns, false⟩)
        = some (.child (.signaled SIGABRT false)) ∧
      reportedOutcome 2 (.execFailed ⟨0, false, .returns, false⟩) = some false ∧
      waitResult 2 (.execFailed ⟨1, false, .neverReturns, false⟩) = none ∧
      reportedOutcome 2 (.execFailed ⟨1, false, .neverReturns, false⟩) = none := by
  refine ⟨?_, by decide, by decide, by decide, by decide⟩
  intro held missing core
  have key : ∀ env : ChildEnv, env.self < 2 →
      waitResult 2 (.execFailed env) ≠ some (.child (.exited 1)) := by
    intro env hself h
    rw [waitResult_execFailed] at h
    cases he : exitInChild 2 env with
    | none => rw [he] at h; cases h
    | some fate =>
      rw [he] at h
      simp only [Option.map_some', Option.some.injEq, ForkResult.child.injEq] at h
      subst h
      exact exitInChild_not_exited 2 env hself 1 he
  exact ⟨key _ (show (0 : Nat) < 2 by decide), key _ (show (1 : Nat) < 2 by decide)⟩

/-- C10: for every interleaving of submissions, worker dequeues and the stop
signal, starting from a new manager, the submitted jobs are exactly the
dequeued jobs followed by the jobs still queued.  So the dequeued jobs are an
initial segment of the submitted jobs in submission order, no job is dequeued
more often than it was submitted, and no submitted job is lost. -/
theorem fifo_queue (events : List QueueEvent) :
    (runQueue QueueTrace.initial events).submitted
        = (runQueue QueueTrace.initial events).dequeued
          ++ (runQueue QueueTrace.initial events).state.tasks_ ∧
      (runQueue QueueTrace.initial events).dequeued
        <+: (runQueue QueueTrace.initial events).submitted ∧
      ∀ job, (runQueue QueueTrace.initial events).dequeued.count job
        ≤ (runQueue QueueTrace.initial events).submitted.count job := by
  have hi : QueueInv (runQueue QueueTrace.initial events) :=
    queueInv_run (by simp [QueueInv, QueueTrace.initial, ManagerState.initial]) events
  unfold QueueInv at hi
  refine ⟨hi, ⟨_, hi.symm⟩, fun job => ?_⟩
  rw [hi, List.count_append]
  omega

/-! ## RateLimiter: key isolation -/

theorem cleanup_nil (now : Int) : cleanup now ⟨[]⟩ = ⟨[]⟩ := rfl

/-- The value of `getRemainingRequests` in terms of the trimmed history. -/
theorem getRemainingRequests_fst_eq (k : String) (now : Int) (m : IpHistory) :
    (getRemainingRequests k now m).1
      = MAX_REQUESTS_PER_WINDOW - ((trimmedOf m k now).timestamps.length : Int) := by
  rw [getRemainingRequests_fst]
  unfold trimmedOf histOf
  cases hf : mapFind m k with
  | none => simp [cleanup_nil]
  | some h => simp

/-- A call for another key, made at an earlier or equal time, does not change
the trimmed history a key shows at time `t`. -/
theorem trimmedOf_isAllowed_ne {m : IpHistory} (hu : UniqueKeys m) {k k2 : String}
    (hne : k2 ≠ k) {now t : Int} (hle : now ≤ t) :
    trimmedOf (isAllowed k now m).2 k2 t = trimmedOf m k2 t := by
  unfold trimmedOf histOf
  rw [mapFind_isAllowed_ne hu hne]
  by_cases hc : Compacts m k
  · rw [if_pos hc]
    cases hf : mapFind m k2 with
    | none => rfl
    | some h =>
      simp only [Option.some_bind, Option.getD_some]
      unfold compactEntry
      by_cases he : (cleanup now h).timestamps.isEmpty = true
      · rw [if_pos he]
        have hnil : cleanup now h = ⟨[]⟩ := by
          have := List.isEmpty_iff.1 he
          cases hcl : cleanup now h with
          | mk l => rw [hcl] at this; simp only at this; rw [this]
        simp only [Option.getD_none]
        rw [← cleanup_cleanup_of_le hle h, hnil]
      · rw [if_neg he]
        simp only [Option.getD_some]
        exact cleanup_cleanup_of_le hle h
  · rw [if_neg hc]

/-- Key isolation for the functions as defined here: for every limiter map
(one node per key), every two distinct keys `k` and `k2`, and every time `now`,
a call `isAllowed(k)` at `now` changes neither the value of
`getRemainingRequests(k2)` nor the result of `isAllowed(k2)` evaluated at any
later time `t`.  For a call `isAllowed(k)` with defined behaviour this is what
the code does. -/
theorem key_isolation {m : IpHistory} (hu : UniqueKeys m) {k k2 : String} (hne : k2 ≠ k)
    (now t : Int) (hle : now ≤ t) :
    (getRemainingRequests k2 t (isAllowed k now m).2).1 = (getRemainingRequests k2 t m).1 ∧
      (isAllowed k2 t (isAllowed k now m).2).1 = (isAllowed k2 t m).1 := by
  have h := trimmedOf_isAllowed_ne hu hne hle
  constructor
  · rw [getRemainingRequests_fst_eq, getRemainingRequests_fst_eq, h]
  · rw [isAllowed_fst, isAllowed_fst, h]

/-! ## ConversionManager: the constructor -/

theorem workerCount_eq (h : Nat) : workerCount h = if h = 0 then 2 else h := by
  unfold workerCount
  by_cases h0 : h = 0
  · simp [h0]
  · simp [h0]

/-- C12, at the failing input: when one hardware execution unit is reported the
constructor starts one worker thread, which is less than the floor of 2. -/
theorem workerCount_one : workerCount 1 = 1 ∧ workerCount 1 < 2 ∧ max 1 2 = 2 := by
  decide

/-! ## ConverterController: filename sanitization -/

theorem sanitizeLoop_data (raw : List Char) (acc : String) :
    (sanitizeLoop raw acc).data
      = acc.data ++ raw.map (fun c => if allowedChar c then c else '_') := by
  induction raw generalizing acc with
  | nil => simp [sanitizeLoop]
  | cons c rest ih =>
    by_cases hc : allowedChar c = true
    · simp [sanitizeLoop, hc, ih, String.push]
    · simp [sanitizeLoop, hc, ih, String.push]

theorem allowedChar_underscore : allowedChar '_' = true := by decide

theorem allowedChar_sanitized (c : Char) :
    allowedChar (if allowedChar c then c else '_') = true := by
  by_cases hc : allowedChar c = true
  · simp [hc]
  · simp [hc, allowedChar_underscore]

theorem allowedChar_cases {c : Char} (h : allowedChar c = true) :
    isalnum c = true ∨ c = '.' ∨ c = '-' ∨ c = '_' := by
  simpa [allowedChar, or_assoc] using h

theorem safeFilename_video_file_allowed :
    ∀ c ∈ "video_file".data, allowedChar c = true := by decide

/-- The sanitized name before the fallback, as a string. -/
theorem sanitizeLoop_eq (raw : String) :
    sanitizeLoop raw.data "" = ⟨raw.data.map (fun c => if allowedChar c then c else '_')⟩ := by
  have h : (sanitizeLoop raw.data "").data
      = [] ++ raw.data.map (fun c => if allowedChar c then c else '_') :=
    sanitizeLoop_data raw.data ""
  rw [List.nil_append] at h
  exact String.ext h

theorem safeFilename_eq (raw : String) :
    safeFilename raw =
      if raw.data.map (fun c => if allowedChar c then c else '_') = [] ∨
          raw.data.map (fun c => if allowedChar c then c else '_') = ['.'] ∨
          raw.data.map (fun c => if allowedChar c then c else '_') = ['.', '.'] then
        "video_file"
      else ⟨raw.data.map (fun c => if allowedChar c then c else '_')⟩ := by
  unfold safeFilename
  rw [sanitizeLoop_eq]
  generalize raw.data.map (fun c => if allowedChar c then c else '_') = l
  have h1 : (String.mk l).isEmpty = true ↔ l = [] := by
    rw [String.isEmpty_iff]
    constructor
    · intro h; exact congrArg String.data h
    · intro h; rw [h]
  have h2 : ∀ s : String, ((String.mk l) == s) = true ↔ l = s.data := by
    intro s
    rw [beq_iff_eq]
    constructor
    · intro h; exact congrArg String.data h
    · intro h; exact String.ext h
  by_cases hf : l = [] ∨ l = ['.'] ∨ l = ['.', '.']
  · rw [if_pos hf]
    have : ((String.mk l).isEmpty || String.mk l == "." || String.mk l == "..") = true := by
      rcases hf with h | h | h
      · simp [h1.2 h]
      · simp [(h2 ".").2 h]
      · simp [(h2 "..").2 h]
    rw [if_pos this]
  · rw [if_neg hf]
    have : ¬ ((String.mk l).isEmpty || String.mk l == "." || String.mk l == "..") = true := by
      intro h
      simp only [Bool.or_eq_true] at h
      rcases h with (h | h) | h
      · exact hf (Or.inl (h1.1 h))
      · exact hf (Or.inr (Or.inl ((h2 ".").1 h)))
      · exact hf (Or.inr (Or.inr ((h2 "..").1 h)))
    rw [if_neg this]

/-- A sanitized character is a dot only when the raw character is. -/
theorem sanitized_eq_dot {c : Char} (h : (if allowedChar c then c else '_') = '.') :
    c = '.' := by
  by_cases hc : allowedChar c = true
  · simpa [hc] using h
  · simp [hc] at h

theorem map_sanitized_eq_dot {l : List Char}
    (h : l.map (fun c => if allowedChar c then c else '_') = ['.']) : l = ['.'] := by
  cases l with
  | nil => simp at h
  | cons c t =>
    cases t with
    | nil =>
      simp only [List.map_cons, List.map_nil, List.cons.injEq, and_true] at h
      rw [sanitized_eq_dot h]
    | cons d t' => simp at h

theorem map_sanitized_eq_dotdot {l : List Char}
    (h : l.map (fun c => if allowedChar c then c else '_') = ['.', '.']) :
    l = ['.', '.'] := by
  cases l with
  | nil => simp at h
  | cons c t =>
    cases t with
    | nil => simp at h
    | cons d t' =>
      cases t' with
      | nil =>
        simp only [List.map_cons, List.map_nil, List.cons.injEq, and_true] at h
        rw [sanitized_eq_dot h.1, sanitized_eq_dot h.2]
      | cons e t'' => simp at h

/-- The fallback applies exactly to the raw names "", "." and "..". -/
theorem fallback_iff (raw : String) :
    (raw.data.map (fun c => if allowedChar c then c else '_') = [] ∨
      raw.data.map (fun c => if allowedChar c then c else '_') = ['.'] ∨
      raw.data.map (fun c => if allowedChar c then c else '_') = ['.', '.']) ↔
    (raw = "" ∨ raw = "." ∨ raw = "..") := by
  constructor
  · rintro (h | h | h)
    · exact Or.inl (String.ext (List.map_eq_nil_iff.1 h))
    · exact Or.inr (Or.inl (String.ext (map_sanitized_eq_dot h)))
    · exact Or.inr (Or.inr (String.ext (map_sanitized_eq_dotdot h)))
  · rintro (h | h | h) <;> subst h <;> decide

/-- C18: for every raw filename, the sanitized filename consists only of ASCII
letters and digits, '.', '-' and '_', so it holds no '/'; it is never empty,
never "." and never ".."; the raw names "", "." and ".." yield "video_file";
and for every other raw name it has the length of the raw name, with every
allowed character kept in place and every other character replaced by '_'. -/
theorem safeFilename_sanitized (raw : String) :
    (∀ c ∈ (safeFilename raw).data, isalnum c = true ∨ c = '.' ∨ c = '-' ∨ c = '_') ∧
      '/' ∉ (safeFilename raw).data ∧
      safeFilename raw ≠ "" ∧ safeFilename raw ≠ "." ∧ safeFilename raw ≠ ".." ∧
      ((raw = "" ∨ raw = "." ∨ raw = "..") → safeFilename raw = "video_file") ∧
      (¬ (raw = "" ∨ raw = "." ∨ raw = "..") →
        (safeFilename raw).data = raw.data.map (fun c => if allowedChar c then c else '_') ∧
        (safeFilename raw).length = raw.length) := by
  have heq := safeFilename_eq raw
  have hall : ∀ c ∈ (safeFilename raw).data, allowedChar c = true := by
    rw [heq]
    split
    · exact safeFilename_video_file_allowed
    · intro c hc
      obtain ⟨d, -, rfl⟩ := List.mem_map.1 hc
      exact allowedChar_sanitized d
  refine ⟨fun c hc => allowedChar_cases (hall c hc), ?_, ?_, ?_, ?_, ?_, ?_⟩
  · intro h
    exact absurd (hall _ h) (by decide)
  · rw [heq]
    split
    · decide
    · rename_i hf
      intro h
      exact hf (Or.inl (congrArg String.data h))
  · rw [heq]
    split
    · decide
    · rename_i hf
      intro h
      exact hf (Or.inr (Or.inl (congrArg String.data h)))
  · rw [heq]
    split
    · decide
    · rename_i hf
      intro h
      exact hf (Or.inr (Or.inr (congrArg String.data h)))
  · intro h
    rw [heq, if_pos ((fallback_iff raw).2 h)]
  · intro h
    have hf := fun hh => h ((fallback_iff raw).1 hh)
    rw [heq, if_neg hf]
    refine ⟨rfl, ?_⟩
    show (raw.data.map (fun c => if allowedChar c then c else '_')).length = raw.data.length
    exact List.length_map _ _

/-! ## ConversionManager: the argument vector -/

theorem foldl_push_cargs (args : List String) (acc : List (Option (List Char))) :
    args.foldl (fun cargs arg => cargs ++ [some (c_str arg)]) acc
      = acc ++ args.map (fun arg => some (c_str arg)) := by
  induction args generalizing acc with
  | nil => simp
  | cons a rest ih => simp [ih]

theorem buildCargs_eq (args : List String) :
    buildCargs args = args.map (fun arg => some (c_str arg)) ++ [none] := by
  simp [buildCargs, foldl_push_cargs]

theorem c_str_of_nulFree {arg : String} (h : NulFree arg) : c_str arg = arg.data := by
  unfold c_str
  apply List.takeWhile_eq_self_iff.2
  intro c hc
  simp only [bne_iff_ne, ne_eq]
  intro h0
  exact h (h0 ▸ hc)

theorem buildCargs_of_nulFree {args : List String} (h : ∀ a ∈ args, NulFree a) :
    buildCargs args = args.map (fun arg => some arg.data) ++ [none] := by
  rw [buildCargs_eq]
  congr 1
  apply List.map_congr_left
  intro a ha
  rw [c_str_of_nulFree (h a ha)]

/-- C15, counterexample: for the arguments `zip` and `a`, NUL, `b`, the second
entry of the vector handed to `execvp` denotes the string `a`, not the second
argument. -/
theorem argv_truncated_at_nul :
    (childExec ⟨["zip", String.mk ['a', Char.ofNat 0, 'b']], "", "", none⟩).2.argv
        = [some ['z', 'i', 'p'], some ['a'], none] ∧
      (childExec ⟨["zip", String.mk ['a', Char.ofNat 0, 'b']], "", "", none⟩).2.argv[1]?
        ≠ some (some (String.mk ['a', Char.ofNat 0, 'b']).data) := by
  decide

/-- C15, amended: for every job whose argument vector is not empty and whose
arguments hold no NUL character, the vector handed to `execvp` has one entry
per argument, in order and unchanged, followed by the null terminator, so its
length is the number of arguments plus one, and the program to execute is the
first argument. -/
theorem argv_verbatim (task : ConversionTask) (hne : task.args ≠ [])
    (hnul : ∀ a ∈ task.args, NulFree a) :
    (childExec task).2.argv = task.args.map (fun arg => some arg.data) ++ [none] ∧
      (childExec task).2.argv.length = task.args.length + 1 ∧
      (∀ i (hi : i < task.args.length),
        (childExec task).2.argv[i]? = some (some (task.args.get ⟨i, hi⟩).data)) ∧
      (childExec task).2.argv[task.args.length]? = some none ∧
      (childExec task).2.file = (task.args.head?).map (fun arg => arg.data) ∧
      (childExec task).2.file ≠ none := by
  have hc : (childExec task).2.argv = task.args.map (fun arg => some arg.data) ++ [none] :=
    buildCargs_of_nulFree hnul
  have hf : (childExec task).2.file
      = (task.args.map (fun (arg : String) => some arg.data) ++ [none]).headD none := by
    unfold childExec
    simp only
    rw [buildCargs_of_nulFree hnul]
  refine ⟨hc, ?_, ?_, ?_, ?_, ?_⟩
  · rw [hc]; simp
  · intro i hi
    rw [hc, List.getElem?_append_left (by simpa using hi)]
    simp [List.getElem?_map, List.getElem?_eq_getElem hi]
  · rw [hc, List.getElem?_append_right (by simp)]
    simp
  · rw [hf]
    cases h : task.args with
    | nil => exact absurd h hne
    | cons a rest => simp
  · rw [hf]
    cases h : task.args with
    | nil => exact absurd h hne
    | cons a rest => simp

/-- Witness of C15 amended: an `ffmpeg` invocation. -/
theorem argv_verbatim_witness :
    (childExec ⟨["ffmpeg", "-i", "in.mp4"], "out.mp3", "in.mp4", some 0⟩).2.argv
        = ["ffmpeg", "-i", "in.mp4"].map (fun arg => some arg.data) ++ [none] ∧
      (childExec ⟨["ffmpeg", "-i", "in.mp4"], "out.mp3", "in.mp4", some 0⟩).2.argv.length
        = ["ffmpeg", "-i", "in.mp4"].length + 1 ∧
      (∀ i (hi : i < ["ffmpeg", "-i", "in.mp4"].length),
        (childExec ⟨["ffmpeg", "-i", "in.mp4"], "out.mp3", "in.mp4", some 0⟩).2.argv[i]?
          = some (some (["ffmpeg", "-i", "in.mp4"].get ⟨i, hi⟩).data)) ∧
      (childExec ⟨["ffmpeg", "-i", "in.mp4"], "out.mp3", "in.mp4", some 0⟩).2.argv[
          ["ffmpeg", "-i", "in.mp4"].length]? = some none ∧
      (childExec ⟨["ffmpeg", "-i", "in.mp4"], "out.mp3", "in.mp4", some 0⟩).2.file
        = (["ffmpeg", "-i", "in.mp4"].head?).map (fun arg => arg.data) ∧
      (childExec ⟨["ffmpeg", "-i", "in.mp4"], "out.mp3", "in.mp4", some 0⟩).2.file ≠ none :=
  argv_verbatim ⟨["ffmpeg", "-i", "in.mp4"], "out.mp3", "in.mp4", some 0⟩
    (by decide) (by decide)

/-! ## ConversionManager: the retention sweeper -/

/-- The loop body never lets an exception through, and logs what it did. -/
theorem scanEntry_eq (now : Int) (log : ScanLog) (entry : DirEntry) :
    scanEntry now log entry = .ok
      ⟨log.visited ++ [entry],
        log.deleted ++ (if tooOld now entry && entry.removable then [entry] else []),
        log.errors ++ (if faulted now entry then [entry] else [])⟩ := by
  obtain ⟨path, reg, mtime, rem⟩ := entry
  cases reg with
  | false => simp [scanEntry, tooOld, faulted]
  | true =>
    cases mtime with
    | none => simp [scanEntry, tryDelete, tooOld, faulted]
    | some ftime =>
      by_cases hage : now - ftime > maxFileAge
      · cases rem <;> simp [scanEntry, tryDelete, tooOld, faulted, hage]
      · simp [scanEntry, tryDelete, tooOld, faulted, hage]

theorem scanDirectory_eq (now : Int) (entries : List DirEntry) (log : ScanLog) :
    scanDirectory now entries log = .ok
      ⟨log.visited ++ entries,
        log.deleted ++ entries.filter (fun e => tooOld now e && e.removable),
        log.errors ++ entries.filter (faulted now)⟩ := by
  induction entries generalizing log with
  | nil => simp [scanDirectory]
  | cons e rest ih =>
    simp only [scanDirectory, scanEntry_eq, ih, List.filter_cons]
    congr 2
    · simp
    · split <;> simp
    · split <;> simp

theorem scanDirectories_eq (now : Int) (dirs : List (Option (List DirEntry)))
    (log : ScanLog) :
    scanDirectories now dirs log = .ok
      ⟨log.visited ++ listedEntries dirs,
        log.deleted ++ (listedEntries dirs).filter (fun e => tooOld now e && e.removable),
        log.errors ++ (listedEntries dirs).filter (faulted now)⟩ := by
  induction dirs generalizing log with
  | nil => simp [scanDirectories, listedEntries]
  | cons d rest ih =>
    cases d with
    | none => simp only [scanDirectories, listedEntries, ih]
    | some entries =>
      simp only [scanDirectories, scanDirectory_eq, ih, listedEntries, List.filter_append,
        List.append_assoc]

/-- One scan in closed form. -/
theorem cleanupScan_eq (now : Int) (dirs : List (Option (List DirEntry))) :
    cleanupScan now dirs = .ok
      ⟨listedEntries dirs,
        (listedEntries dirs).filter (fun e => tooOld now e && e.removable),
        (listedEntries dirs).filter (faulted now)⟩ := by
  simp [cleanupScan, scanDirectories_eq]

theorem cleanupLoop_eq (wakeUps : List WakeUp) :
    cleanupLoop wakeUps = .ok
      ((wakeUps.takeWhile (fun w => !w.stop)).map (fun w =>
        ⟨listedEntries w.dirs,
          (listedEntries w.dirs).filter (fun e => tooOld w.now e && e.removable),
          (listedEntries w.dirs).filter (faulted w.now)⟩)) := by
  induction wakeUps with
  | nil => rfl
  | cons w rest ih =>
    cases hs : w.stop with
    | true => simp [cleanupLoop, hs]
    | false => simp [cleanupLoop, hs, cleanupScan_eq, ih]

/-- C16: one scan at time `now` visits exactly the entries listed directly in
the target directories.  An entry whose modification time can be read and whose
removal does not fail is deleted if and only if it is a regular file and
`now - mtime` is strictly greater than `maxFileAge` (one hour).  So a regular
file with `mtime = now - maxFileAge - 1s` is deleted, an entry with
`mtime = now - maxFileAge + 1s` is kept, an entry that is not a regular file is
never deleted, and nothing outside the listings is deleted. -/
theorem sweeper_age_boundary (now : Int) (dirs : List (Option (List DirEntry))) :
    ∃ log, cleanupScan now dirs = .ok log ∧
      log.visited = listedEntries dirs ∧
      (∀ e ∈ listedEntries dirs, ∀ mtime, e.lastWriteTime = some mtime →
        e.removable = true →
        (e ∈ log.deleted ↔ e.isRegularFile = true ∧ now - mtime > maxFileAge)) ∧
      (∀ e ∈ listedEntries dirs, e.isRegularFile = true → e.removable = true →
        e.lastWriteTime = some (now - maxFileAge - oneSecond) → e ∈ log.deleted) ∧
      (∀ e, e.lastWriteTime = some (now - maxFileAge + oneSecond) → e ∉ log.deleted) ∧
      (∀ e, e.isRegularFile = false → e ∉ log.deleted) ∧
      (∀ e ∈ log.deleted, e ∈ listedEntries dirs) := by
  refine ⟨_, cleanupScan_eq now dirs, rfl, ?_, ?_, ?_, ?_, ?_⟩
  · intro e he mtime hm hr
    simp only [List.mem_filter, he, true_and, tooOld, hm, hr, Bool.and_true,
      Bool.and_eq_true, decide_eq_true_eq]
  · intro e he hreg hr hm
    simp only [List.mem_filter, he, true_and, tooOld, hm, hr, hreg, Bool.and_true,
      Bool.true_and, decide_eq_true_eq]
    unfold oneSecond
    omega
  · intro e hm hdel
    simp only [List.mem_filter, tooOld, hm, Bool.and_eq_true, decide_eq_true_eq] at hdel
    have := hdel.2.1.2
    unfold oneSecond at this
    omega
  · intro e hreg hdel
    simp only [List.mem_filter, tooOld, hreg, Bool.false_and, Bool.false_eq_true,
      and_false] at hdel
  · intro e hdel
    exact (List.mem_filter.1 hdel).1

/-- C17: for every listing and every set of entries on which reading the
modification time or removing the file throws, the scan ends normally, has
visited every listed entry, has deleted every regular file that is too old and
whose removal did not throw, and has logged exactly the entries that threw.
The sweeper loop runs exactly one such scan at every wake-up before the stop
signal, in order: its logs are the logs of `cleanupScan` at those wake-ups, each
of them the complete scan just described, and it never ends with an
exception. -/
theorem sweeper_error_isolation (now : Int) (dirs : List (Option (List DirEntry)))
    (wakeUps : List WakeUp) :
    (∃ log, cleanupScan now dirs = .ok log ∧
      log.visited = listedEntries dirs ∧
      log.deleted = (listedEntries dirs).filter (fun e => tooOld now e && e.removable) ∧
      log.errors = (listedEntries dirs).filter (faulted now)) ∧
    (∃ logs, cleanupLoop wakeUps = .ok logs ∧
      logs.map Except.ok
        = (wakeUps.takeWhile (fun w => !w.stop)).map (fun w => cleanupScan w.now w.dirs) ∧
      logs = (wakeUps.takeWhile (fun w => !w.stop)).map (fun w =>
        ⟨listedEntries w.dirs,
          (listedEntries w.dirs).filter (fun e => tooOld w.now e && e.removable),
          (listedEntries w.dirs).filter (faulted w.now)⟩)) := by
  refine ⟨⟨_, cleanupScan_eq now dirs, rfl, rfl, rfl⟩, ⟨_, cleanupLoop_eq wakeUps, ?_, rfl⟩⟩
  simp only [List.map_map]
  apply List.map_congr_left
  intro w _
  simp only [Function.comp, cleanupScan_eq]

/-! ## ConversionManager: the worker pool -/

theorem workerDequeue_stop (s : ManagerState) : (workerDequeue s).2.stop_ = s.stop_ := by
  unfold workerDequeue
  split
  · rfl
  · split
    · rfl
    · split <;> rfl

theorem workerDequeue_counter (s : ManagerState) :
    (workerDequeue s).2.totalConversions_ = s.totalConversions_ := by
  unfold workerDequeue
  split
  · rfl
  · split
    · rfl
    · split <;> rfl

/-- A worker returns from the locked block exactly when `stop_` is set and the
queue is empty. -/
theorem workerDequeue_exited_iff (s : ManagerState) :
    (workerDequeue s).1 = .exited ↔ s.stop_ = true ∧ s.tasks_ = [] := by
  obtain ⟨tasks, stop, n⟩ := s
  cases stop <;> cases tasks <;> simp [workerDequeue]

/-- With a task in the queue the worker takes the front task, whether or not
`stop_` is set. -/
theorem workerDequeue_of_nonempty (s : ManagerState) (task : ConversionTask)
    (rest : List ConversionTask) (h : s.tasks_ = task :: rest) :
    workerDequeue s = (.took task, { s with tasks_ := rest }) := by
  obtain ⟨tasks, stop, n⟩ := s
  simp only at h
  subst h
  cases stop <;> simp [workerDequeue]

theorem processTask_tasks (task : ConversionTask) (r : ForkResult) (s : ManagerState) :
    (processTask task r s).2.tasks_ = s.tasks_ ∧ (processTask task r s).2.stop_ = s.stop_ := by
  unfold processTask incrementTotalConversions
  cases task.callback <;> cases executeTask r <;> simp

/-- Processing one job adds one to the counter when the outcome is true and
leaves it unchanged when the outcome is false. -/
theorem processTask_counter (task : ConversionTask) (r : ForkResult) (s : ManagerState) :
    getTotalConversions (processTask task r s).2
      = getTotalConversions s + (if executeTask r then 1 else 0) := by
  unfold processTask incrementTotalConversions getTotalConversions
  cases task.callback <;> cases executeTask r <;> simp

/-- The callback invocations of one loop body. -/
theorem processTask_calls (task : ConversionTask) (r : ForkResult) (s : ManagerState) :
    (processTask task r s).1
      = match task.callback with
        | some callback => [(callback, executeTask r)]
        | none => [] := by
  unfold processTask
  cases task.callback <;> rfl

theorem countP_set_add {α : Type} (p : α → Bool) (l : List α) (i : Nat) (a b : α)
    (h : l[i]? = some a) :
    (l.set i b).countP p + (if p a then 1 else 0)
      = l.countP p + (if p b then 1 else 0) := by
  induction l generalizing i with
  | nil => simp at h
  | cons x xs ih =>
    cases i with
    | zero =>
      simp only [List.getElem?_cons_zero, Option.some.injEq] at h
      subst h
      simp only [List.set_cons_zero, List.countP_cons]
      omega
    | succ i =>
      simp only [List.getElem?_cons_succ] at h
      have := ih i h
      simp only [List.set_cons_succ, List.countP_cons]
      omega

theorem mem_of_mem_set {α : Type} {l : List α} {i : Nat} {b x : α}
    (h : x ∈ l.set i b) : x ∈ l ∨ x = b := by
  induction l generalizing i with
  | nil => simp at h
  | cons y ys ih =>
    cases i with
    | zero =>
      simp only [List.set_cons_zero, List.mem_cons] at h
      rcases h with h | h
      · exact Or.inr h
      · exact Or.inl (List.mem_cons_of_mem _ h)
    | succ i =>
      simp only [List.set_cons_succ, List.mem_cons] at h
      rcases h with h | h
      · exact Or.inl (h ▸ List.mem_cons_self _ _)
      · rcases ih h with h' | h'
        · exact Or.inl (List.mem_cons_of_mem _ h')
        · exact Or.inr h'

theorem mem_set_self {α : Type} {l : List α} {i : Nat} {a : α} (b : α)
    (h : l[i]? = some a) : b ∈ l.set i b := by
  induction l generalizing i with
  | nil => simp at h
  | cons y ys ih =>
    cases i with
    | zero => simp
    | succ i =>
      simp only [List.getElem?_cons_succ] at h
      simp only [List.set_cons_succ, List.mem_cons]
      exact Or.inr (ih h)

theorem mem_of_getElem?_eq {α : Type} {l : List α} {i : Nat} {a : α}
    (h : l[i]? = some a) : a ∈ l := by
  obtain ⟨hi, rfl⟩ := List.getElem?_eq_some.1 h
  exact List.getElem_mem _

theorem getElem?_append_stable {α : Type} {l : List α} {i : Nat} {a : α} (x : α)
    (h : l[i]? = some a) : (l ++ [x])[i]? = some a := by
  obtain ⟨hi, -⟩ := List.getElem?_eq_some.1 h
  rw [List.getElem?_append_left hi]
  exact h

theorem poolStep_workers_length (st : PoolState) (e : PoolEvent) :
    (poolStep st e).workers.length = st.workers.length := by
  cases e with
  | submit a i o c => rfl
  | stop => rfl
  | wake w =>
    simp only [poolStep]
    split
    · split <;> simp
    · rfl
  | finish w r =>
    simp only [poolStep]
    split
    · simp
    · rfl

theorem runPool_workers_length (st : PoolState) (events : List PoolEvent) :
    (runPool st events).workers.length = st.workers.length := by
  induction events generalizing st with
  | nil => rfl
  | cons e es ih =>
    show (runPool (poolStep st e) es).workers.length = _
    rw [ih, poolStep_workers_length]

theorem poolInv_start (poolSize : Nat) : PoolInv (PoolState.start poolSize) where
  queue := rfl
  account := by
    intro j
    have h : (List.replicate poolSize WorkerState.idle).countP (WorkerState.holds j) = 0 := by
      rw [List.countP_eq_zero]
      intro w hw
      rw [List.eq_of_mem_replicate hw]
      simp [WorkerState.holds]
    simp [PoolState.start, h]
  held := by
    intro j task h
    have := List.eq_of_mem_replicate h
    cases this
  done := by
    intro c hc
    cases hc
  calls := rfl
  marked := by
    intro h
    cases h
  markLe := by
    intro k h
    cases h
  drained := by
    intro h
    have := List.eq_of_mem_replicate h
    cases this
  counter := rfl

theorem poolInv_submit {st : PoolState} (hi : PoolInv st) (args : List String)
    (inputFilename outputFilename : String) (callback : Option Nat) :
    PoolInv (poolStep st (.submit args inputFilename outputFilename callback)) where
  queue := by
    simp only [poolStep, addTask, hi.queue, List.append_assoc]
  account := hi.account
  held := hi.held
  done := hi.done
  calls := hi.calls
  marked := hi.marked
  markLe := by
    intro k hk
    have := hi.markLe k hk
    simp only [poolStep, List.length_append, List.length_singleton]
    omega
  drained := hi.drained
  counter := hi.counter

theorem poolInv_stop {st : PoolState} (hi : PoolInv st) : PoolInv (poolStep st .stop) where
  queue := hi.queue
  account := hi.account
  held := hi.held
  done := hi.done
  calls := hi.calls
  marked := by
    intro _
    simp only [poolStep]
    cases st.stopMark <;> rfl
  markLe := by
    intro k hk
    simp only [poolStep] at hk
    cases hm : st.stopMark with
    | none =>
      rw [hm] at hk
      simp only [Option.some.injEq] at hk
      simp only [poolStep]
      omega
    | some k' =>
      rw [hm] at hk
      simp only [Option.some.injEq] at hk
      subst hk
      exact hi.markLe _ hm
  drained := by
    intro he
    obtain ⟨hs, hk⟩ := hi.drained he
    refine ⟨rfl, ?_⟩
    intro k hmark
    simp only [poolStep] at hmark
    cases hm : st.stopMark with
    | none =>
      have := hi.marked hs
      rw [hm] at this
      cases this
    | some k' =>
      rw [hm] at hmark
      simp only [Option.some.injEq] at hmark
      subst hmark
      exact hk _ hm
  counter := hi.counter

theorem poolStep_wake_took {st : PoolState} {w : Nat} {task : ConversionTask}
    {s' : ManagerState} (hw : st.workers[w]? = some .idle)
    (hd : workerDequeue st.manager = (.took task, s')) :
    poolStep st (.wake w) =
      { st with
        manager := s'
        workers := st.workers.set w (.busy st.dequeued.length task)
        dequeued := st.dequeued ++ [task] } := by
  simp only [poolStep, hw, hd]

theorem poolStep_wake_exited {st : PoolState} {w : Nat} {s' : ManagerState}
    (hw : st.workers[w]? = some .idle)
    (hd : workerDequeue st.manager = (.exited, s')) :
    poolStep st (.wake w) = { st with manager := s', workers := st.workers.set w .exited } := by
  simp only [poolStep, hw, hd]

theorem poolStep_wake_waiting {st : PoolState} {w : Nat} {s' : ManagerState}
    (hw : st.workers[w]? = some .idle)
    (hd : workerDequeue st.manager = (.waiting, s')) :
    poolStep st (.wake w) = { st with manager := s' } := by
  simp only [poolStep, hw, hd]

theorem poolStep_wake_other {st : PoolState} {w : Nat}
    (hw : st.workers[w]? ≠ some .idle) : poolStep st (.wake w) = st := by
  cases h : st.workers[w]? with
  | none => simp only [poolStep, h]
  | some ws =>
    cases ws with
    | idle => exact absurd h hw
    | busy job task => simp only [poolStep, h]
    | exited => simp only [poolStep, h]

theorem poolStep_finish_busy {st : PoolState} {w job : Nat} {task : ConversionTask}
    (r : ForkResult) (hw : st.workers[w]? = some (.busy job task)) :
    poolStep st (.finish w r) =
      { st with
        manager := (processTask task r st.manager).2
        workers := st.workers.set w .idle
        completed := st.completed ++ [⟨job, task, executeTask r⟩]
        invoked := st.invoked
          ++ (processTask task r st.manager).1.map (fun c => ⟨job, c.1, c.2⟩) } := by
  simp only [poolStep, hw]

theorem poolStep_finish_other {st : PoolState} {w : Nat} (r : ForkResult)
    (hw : ∀ job task, st.workers[w]? ≠ some (.busy job task)) :
    poolStep st (.finish w r) = st := by
  cases h : st.workers[w]? with
  | none => simp only [poolStep, h]
  | some ws =>
    cases ws with
    | idle => simp only [poolStep, h]
    | busy job task => exact absurd h (hw job task)
    | exited => simp only [poolStep, h]

theorem poolInv_wake_took {st : PoolState} (hi : PoolInv st) {w : Nat}
    {task : ConversionTask} {s' : ManagerState} (hw : st.workers[w]? = some .idle)
    (hd : workerDequeue st.manager = (.took task, s')) :
    PoolInv (poolStep st (.wake w)) := by
  have htasks := workerDequeue_took hd
  have hstop : s'.stop_ = st.manager.stop_ := by
    have := workerDequeue_stop st.manager
    rwa [hd] at this
  have hcnt : s'.totalConversions_ = st.manager.totalConversions_ := by
    have := workerDequeue_counter st.manager
    rwa [hd] at this
  rw [poolStep_wake_took hw hd]
  refine
    { queue := ?_, account := ?_, held := ?_, done := ?_, calls := hi.calls, marked := ?_,
      markLe := hi.markLe, drained := ?_, counter := ?_ }
  · simp only [hi.queue, htasks, List.append_assoc, List.singleton_append]
  · intro j
    have hold := hi.account j
    have hset := countP_set_add (WorkerState.holds j) st.workers w .idle
      (.busy st.dequeued.length task) hw
    simp only [WorkerState.holds, Bool.false_eq_true, if_false, Nat.add_zero] at hset
    simp only [List.length_append, List.length_singleton]
    rw [hset]
    by_cases hj : st.dequeued.length = j
    · have hnew := hi.account j
      simp only [hj, lt_irrefl, if_false] at hnew hold
      simp only [hj, beq_self_eq_true, if_true]
      have : j < j + 1 := Nat.lt_succ_self j
      simp only [this, if_true]
      omega
    · have hne : (st.dequeued.length == j) = false := by simpa using hj
      simp only [hne, Bool.false_eq_true, if_false, Nat.add_zero]
      rw [hold]
      by_cases hlt : j < st.dequeued.length
      · have : j < st.dequeued.length + 1 := by omega
        simp [hlt, this]
      · have : ¬ j < st.dequeued.length + 1 := by omega
        simp [hlt, this]
  · intro j t hmem
    rcases mem_of_mem_set hmem with h | h
    · exact getElem?_append_stable task (hi.held j t h)
    · cases h
      simp
  · intro c hc
    exact getElem?_append_stable task (hi.done c hc)
  · intro h
    exact hi.marked (hstop ▸ h)
  · intro hmem
    rcases mem_of_mem_set hmem with h | h
    · obtain ⟨hs, hk⟩ := hi.drained h
      refine ⟨hstop ▸ hs, fun k hm => ?_⟩
      have := hk k hm
      simp only [List.length_append, List.length_singleton]
      omega
    · cases h
  · show s'.totalConversions_ = _
    rw [hcnt]
    exact hi.counter

theorem poolInv_wake_exited {st : PoolState} (hi : PoolInv st) {w : Nat}
    {s' : ManagerState} (hw : st.workers[w]? = some .idle)
    (hd : workerDequeue st.manager = (.exited, s')) :
    PoolInv (poolStep st (.wake w)) := by
  have hs' : s' = st.manager := workerDequeue_not_took hd (fun t h => by cases h)
  have hex : st.manager.stop_ = true ∧ st.manager.tasks_ = [] := by
    apply (workerDequeue_exited_iff st.manager).1
    rw [hd]
  subst hs'
  rw [poolStep_wake_exited hw hd]
  refine
    { queue := hi.queue, account := ?_, held := ?_, done := hi.done, calls := hi.calls,
      marked := hi.marked, markLe := hi.markLe, drained := ?_, counter := hi.counter }
  · intro j
    have hset := countP_set_add (WorkerState.holds j) st.workers w .idle .exited hw
    simp only [WorkerState.holds, Bool.false_eq_true, if_false, Nat.add_zero] at hset
    show _ + (st.workers.set w .exited).countP _ = _
    rw [hset]
    exact hi.account j
  · intro j t hmem
    rcases mem_of_mem_set hmem with h | h
    · exact hi.held j t h
    · cases h
  · intro _
    refine ⟨hex.1, fun k hm => ?_⟩
    have hle := hi.markLe k hm
    have hq := hi.queue
    rw [hex.2, List.append_nil] at hq
    show k ≤ st.dequeued.length
    rw [← hq]
    exact hle

theorem poolInv_wake_waiting {st : PoolState} (hi : PoolInv st) {w : Nat}
    {s' : ManagerState} (hw : st.workers[w]? = some .idle)
    (hd : workerDequeue st.manager = (.waiting, s')) :
    PoolInv (poolStep st (.wake w)) := by
  have hs' : s' = st.manager := workerDequeue_not_took hd (fun t h => by cases h)
  subst hs'
  rw [poolStep_wake_waiting hw hd]
  exact hi

theorem poolInv_finish {st : PoolState} (hi : PoolInv st) {w job : Nat}
    {task : ConversionTask} (r : ForkResult)
    (hw : st.workers[w]? = some (.busy job task)) :
    PoolInv (poolStep st (.finish w r)) := by
  obtain ⟨htasks, hstop⟩ := processTask_tasks task r st.manager
  rw [poolStep_finish_busy r hw]
  refine
    { queue := ?_, account := ?_, held := ?_, done := ?_, calls := ?_, marked := ?_,
      markLe := hi.markLe, drained := ?_, counter := ?_ }
  · show st.submitted = st.dequeued ++ (processTask task r st.manager).2.tasks_
    rw [htasks]
    exact hi.queue
  · intro j
    have hold := hi.account j
    have hset := countP_set_add (WorkerState.holds j) st.workers w (.busy job task) .idle hw
    simp only [WorkerState.holds, Bool.false_eq_true, if_false, Nat.add_zero] at hset
    show (st.completed ++ [(⟨job, task, executeTask r⟩ : Completion)]).countP _
      + (st.workers.set w .idle).countP _ = _
    rw [List.countP_append, List.countP_singleton]
    simp only at hset ⊢
    omega
  · intro j t hmem
    rcases mem_of_mem_set hmem with h | h
    · exact hi.held j t h
    · cases h
  · intro c hc
    rcases List.mem_append.1 hc with h | h
    · exact hi.done c h
    · rw [List.mem_singleton] at h
      subst h
      exact hi.held job task (mem_of_getElem?_eq hw)
  · show st.invoked ++ _
      = (st.completed ++ [(⟨job, task, executeTask r⟩ : Completion)]).filterMap _
    rw [List.filterMap_append, ← hi.calls, processTask_calls]
    congr 1
    cases hcb : task.callback <;> simp [Completion.invocation, hcb]
  · intro h
    exact hi.marked (hstop ▸ h)
  · intro hmem
    rcases mem_of_mem_set hmem with h | h
    · obtain ⟨hs, hk⟩ := hi.drained h
      exact ⟨hstop ▸ hs, hk⟩
    · cases h
  · show getTotalConversions (processTask task r st.manager).2 = _
    rw [processTask_counter, hi.counter, List.countP_append, List.countP_singleton]

/-- Every event preserves the invariant of the pool. -/
theorem poolInv_step {st : PoolState} (hi : PoolInv st) (e : PoolEvent) :
    PoolInv (poolStep st e) := by
  cases e with
  | submit args inputFilename outputFilename callback =>
    exact poolInv_submit hi args inputFilename outputFilename callback
  | stop => exact poolInv_stop hi
  | wake w =>
    by_cases hw : st.workers[w]? = some .idle
    · cases hd : workerDequeue st.manager with
      | mk step s' =>
        cases step with
        | waiting => exact poolInv_wake_waiting hi hw hd
        | exited => exact poolInv_wake_exited hi hw hd
        | took task => exact poolInv_wake_took hi hw hd
    · rw [poolStep_wake_other hw]
      exact hi
  | finish w r =>
    by_cases hw : ∃ job task, st.workers[w]? = some (.busy job task)
    · obtain ⟨job, task, hw⟩ := hw
      exact poolInv_finish hi r hw
    · rw [poolStep_finish_other r (fun job task h => hw ⟨job, task, h⟩)]
      exact hi

theorem poolInv_run {st : PoolState} (hi : PoolInv st) (events : List PoolEvent) :
    PoolInv (runPool st events) := by
  induction events generalizing st with
  | nil => exact hi
  | cons e es ih => exact ih (poolInv_step hi e)

theorem getElem?_set_at {α : Type} {l : List α} {i : Nat} {a : α} (b : α)
    (h : l[i]? = some a) : (l.set i b)[i]? = some b := by
  obtain ⟨hi, -⟩ := List.getElem?_eq_some.1 h
  exact List.getElem?_set_self hi

/-- The invocations of one job among the invocations of a list of completed
loop bodies. -/
theorem filter_invocations (l : List Completion) (j : Nat) :
    (l.filterMap Completion.invocation).filter (fun i => i.job == j)
      = (l.filter (fun c => c.job == j)).filterMap Completion.invocation := by
  induction l with
  | nil => rfl
  | cons c rest ih =>
    cases hcb : c.task.callback with
    | none =>
      have hnone : Completion.invocation c = none := by simp [Completion.invocation, hcb]
      rw [List.filterMap_cons_none hnone, List.filter_cons]
      split
      · rw [List.filterMap_cons_none hnone, ih]
      · exact ih
    | some cb =>
      have hsome : Completion.invocation c = some ⟨c.job, cb, c.success⟩ := by
        simp [Completion.invocation, hcb]
      rw [List.filterMap_cons_some hsome, List.filter_cons, List.filter_cons]
      simp only
      split
      · rw [List.filterMap_cons_some hsome, ih]
      · exact ih

/-- No event lowers the counter. -/
theorem poolStep_counter_le (st : PoolState) (e : PoolEvent) :
    getTotalConversions st.manager ≤ getTotalConversions (poolStep st e).manager := by
  cases e with
  | submit args inputFilename outputFilename callback => exact Nat.le_refl _
  | stop => exact Nat.le_refl _
  | wake w =>
    by_cases hw : st.workers[w]? = some .idle
    · have hc := workerDequeue_counter st.manager
      cases hd : workerDequeue st.manager with
      | mk step s' =>
        rw [hd] at hc
        simp only at hc
        cases step with
        | waiting =>
          rw [poolStep_wake_waiting hw hd]
          exact Nat.le_of_eq hc.symm
        | exited =>
          rw [poolStep_wake_exited hw hd]
          exact Nat.le_of_eq hc.symm
        | took task =>
          rw [poolStep_wake_took hw hd]
          exact Nat.le_of_eq hc.symm
    · rw [poolStep_wake_other hw]
  | finish w r =>
    by_cases hw : ∃ job task, st.workers[w]? = some (.busy job task)
    · obtain ⟨job, task, hw⟩ := hw
      rw [poolStep_finish_busy r hw]
      show _ ≤ getTotalConversions (processTask task r st.manager).2
      rw [processTask_counter]
      exact Nat.le_add_right _ _
    · rw [poolStep_finish_other r (fun job task h => hw ⟨job, task, h⟩)]

/-! ## ConversionManager: the specified properties of the pool -/

/-- C11: a worker returns from the locked block only when `stop_` is set and
the queue is empty, and with `stop_` set and a non-empty queue it takes the
front task instead.  Hence, for every pool size of at least 1 and every run of
the pool from its start, once every worker has returned: the stop signal was
given after some number `K` of submissions, and each of these `K` jobs has been
dequeued in its submission position, has had its loop body completed exactly
once, and has had its callback, if it carries one, invoked exactly once. -/
theorem queue_drain (poolSize : Nat) (hsize : 1 ≤ poolSize) (events : List PoolEvent)
    (st : PoolState) (hst : st = runPool (PoolState.start poolSize) events)
    (hexit : ∀ w ∈ st.workers, w = .exited) :
    (∀ s, (workerDequeue s).1 = .exited ↔ s.stop_ = true ∧ s.tasks_ = []) ∧
    (∀ s task rest, s.stop_ = true → s.tasks_ = task :: rest →
      workerDequeue s = (.took task, { s with tasks_ := rest })) ∧
    ∃ K, st.stopMark = some K ∧ K ≤ st.submitted.length ∧
      ∀ j, j < K →
        ∃ task, st.submitted[j]? = some task ∧ st.dequeued[j]? = some task ∧
          (∃ success, st.completed.filter (fun c => c.job == j) = [⟨j, task, success⟩]) ∧
          (∀ callback, task.callback = some callback →
            ∃ success, st.invoked.filter (fun i => i.job == j) = [⟨j, callback, success⟩]) ∧
          (task.callback = none → st.invoked.filter (fun i => i.job == j) = []) := by
  have hi : PoolInv st := hst ▸ poolInv_run (poolInv_start poolSize) events
  have hlen : st.workers.length = poolSize := by
    rw [hst, runPool_workers_length]
    simp [PoolState.start]
  refine ⟨workerDequeue_exited_iff, fun s task rest _ h => workerDequeue_of_nonempty s task rest h,
    ?_⟩
  -- some worker has returned
  have hmem : WorkerState.exited ∈ st.workers := by
    cases hws : st.workers with
    | nil => rw [hws] at hlen; simp at hlen; omega
    | cons w rest =>
      have := hexit w (by rw [hws]; exact List.mem_cons_self _ _)
      rw [this]
      exact List.mem_cons_self _ _
  obtain ⟨hstop, hdeq⟩ := hi.drained hmem
  obtain ⟨K, hK⟩ := Option.isSome_iff_exists.1 (hi.marked hstop)
  refine ⟨K, hK, hi.markLe K hK, ?_⟩
  intro j hj
  have hjd : j < st.dequeued.length := Nat.lt_of_lt_of_le hj (hdeq K hK)
  -- the job, in the queue order
  have hsub : st.submitted[j]? = st.dequeued[j]? := by
    rw [hi.queue, List.getElem?_append_left hjd]
  have hget : st.dequeued[j]? = some (st.dequeued[j]) := List.getElem?_eq_getElem hjd
  refine ⟨st.dequeued[j], hsub.trans hget, hget, ?_⟩
  -- no worker holds a job
  have hbusy : st.workers.countP (WorkerState.holds j) = 0 := by
    rw [List.countP_eq_zero]
    intro w hw
    rw [hexit w hw]
    simp [WorkerState.holds]
  have hacc := hi.account j
  rw [hbusy, if_pos hjd, Nat.add_zero, List.countP_eq_length_filter] at hacc
  obtain ⟨c, hc⟩ := List.length_eq_one.1 hacc
  have hcmem : c ∈ st.completed.filter (fun c => c.job == j) := by
    rw [hc]; exact List.mem_singleton_self c
  obtain ⟨hcin, hcjob⟩ := List.mem_filter.1 hcmem
  have hcjob' : c.job = j := by simpa using hcjob
  have hctask : c.task = st.dequeued[j] := by
    have := hi.done c hcin
    rw [hcjob', hget] at this
    exact (Option.some.inj this).symm
  have hceq : c = ⟨j, st.dequeued[j], c.success⟩ := by
    cases c with
    | mk job task success =>
      simp only at hcjob' hctask
      subst hcjob' hctask
      rfl
  have hinv : st.invoked.filter (fun i => i.job == j)
      = [c].filterMap Completion.invocation := by
    rw [hi.calls, filter_invocations, hc]
  refine ⟨⟨c.success, by rw [hc, ← hceq]⟩, ?_, ?_⟩
  · intro callback hcb
    refine ⟨c.success, ?_⟩
    rw [hinv]
    have : Completion.invocation c = some ⟨j, callback, c.success⟩ := by
      simp [Completion.invocation, hctask, hcb, hcjob']
    simp [this]
  · intro hcb
    rw [hinv]
    have : Completion.invocation c = none := by
      simp [Completion.invocation, hctask, hcb]
    simp [this]

/-- Witness of C11: two workers, two jobs submitted before the stop signal and
one after it; both workers have returned at the end of the run. -/
theorem queue_drain_witness :
    (∀ s, (workerDequeue s).1 = .exited ↔ s.stop_ = true ∧ s.tasks_ = []) ∧
    (∀ s task rest, s.stop_ = true → s.tasks_ = task :: rest →
      workerDequeue s = (.took task, { s with tasks_ := rest })) ∧
    ∃ K, (runPool (PoolState.start 2) sampleRun).stopMark = some K ∧
      K ≤ (runPool (PoolState.start 2) sampleRun).submitted.length ∧
      ∀ j, j < K →
        ∃ task, (runPool (PoolState.start 2) sampleRun).submitted[j]? = some task ∧
          (runPool (PoolState.start 2) sampleRun).dequeued[j]? = some task ∧
          (∃ success,
            (runPool (PoolState.start 2) sampleRun).completed.filter (fun c => c.job == j)
              = [⟨j, task, success⟩]) ∧
          (∀ callback, task.callback = some callback →
            ∃ success,
              (runPool (PoolState.start 2) sampleRun).invoked.filter (fun i => i.job == j)
                = [⟨j, callback, success⟩]) ∧
          (task.callback = none →
            (runPool (PoolState.start 2) sampleRun).invoked.filter (fun i => i.job == j)
              = []) :=
  queue_drain 2 (by decide) sampleRun _ rfl (by decide)

/-- One iteration of the worker loop in which `waitpid` returns, from the
locked block to the end of the loop body, for a task at the front of the queue
that carries a callback: whatever `fork` and `waitpid` give (fork failure, any
exit status, a signal), the iteration invokes that callback exactly once, with
the boolean outcome as argument, records one completion, and leaves the worker
at the top of its loop, not returned. -/
theorem iteration_invokes_callback (st : PoolState) (w : Nat) (task : ConversionTask)
    (rest : List ConversionTask) (callback : Nat) (r : ForkResult)
    (hw : st.workers[w]? = some .idle)
    (hq : st.manager.tasks_ = task :: rest)
    (hcb : task.callback = some callback) :
    (processTask task r st.manager).1 = [(callback, executeTask r)] ∧
      (poolStep (poolStep st (.wake w)) (.finish w r)).invoked
        = st.invoked ++ [⟨st.dequeued.length, callback, executeTask r⟩] ∧
      (poolStep (poolStep st (.wake w)) (.finish w r)).completed
        = st.completed ++ [⟨st.dequeued.length, task, executeTask r⟩] ∧
      (poolStep (poolStep st (.wake w)) (.finish w r)).workers[w]? = some .idle ∧
      (poolStep (poolStep st (.wake w)) (.finish w r)).manager.tasks_ = rest := by
  have hd := workerDequeue_of_nonempty st.manager task rest hq
  have hbusy : (poolStep st (.wake w)).workers[w]?
      = some (.busy st.dequeued.length task) := by
    rw [poolStep_wake_took hw hd]
    exact getElem?_set_at _ hw
  have hcalls : ∀ s, (processTask task r s).1 = [(callback, executeTask r)] := by
    intro s
    rw [processTask_calls, hcb]
  refine ⟨hcalls _, ?_, ?_, ?_, ?_⟩
  · rw [poolStep_finish_busy r hbusy]
    simp only [hcalls, List.map_cons, List.map_nil]
    rw [poolStep_wake_took hw hd]
  · rw [poolStep_finish_busy r hbusy]
    simp only
    rw [poolStep_wake_took hw hd]
  · rw [poolStep_finish_busy r hbusy]
    exact getElem?_set_at _ hbusy
  · rw [poolStep_finish_busy r hbusy]
    simp only
    rw [(processTask_tasks task r _).1, poolStep_wake_took hw hd]

/-- C13, at the failing input: in a pool of two workers the second worker
holds a job with a callback whose executable cannot be launched.  `execvp`
returns, the child runs `exit(1)` and with it `~ConversionManager`, whose join
on the first worker never returns in the child.  `waitpid` does not return:
the callback is not invoked, no completion is recorded, and the worker still
holds the job instead of being back at the top of its loop. -/
theorem callback_missing_after_exec_failure :
    stuckPool.workers[1]? = some (.busy 0 ⟨["no-such-program"], "out", "in", some 7⟩) ∧
      stuckPool.invoked = [] ∧
      waitResult stuckPool.workers.length (.execFailed ⟨1, false, .neverReturns, false⟩) = none ∧
      (poolAfterChild stuckPool 1 (.execFailed ⟨1, false, .neverReturns, false⟩)).invoked = [] ∧
      (poolAfterChild stuckPool 1 (.execFailed ⟨1, false, .neverReturns, false⟩)).completed = [] ∧
      (poolAfterChild stuckPool 1 (.execFailed ⟨1, false, .neverReturns, false⟩)).workers[1]?
        = some (.busy 0 ⟨["no-such-program"], "out", "in", some 7⟩) := by
  decide

/-- C14: the counter starts at 0; after any run of the pool it equals the
number of completed jobs whose outcome was true; processing one job adds
exactly 1 when the outcome is true and nothing when it is false; and no event
of the pool lowers it. -/
theorem completion_counter (poolSize : Nat) (events : List PoolEvent) :
    getTotalConversions (PoolState.start poolSize).manager = 0 ∧
      getTotalConversions (runPool (PoolState.start poolSize) events).manager
        = ((runPool (PoolState.start poolSize) events).completed.filter
            (fun c => c.success)).length ∧
      (∀ task r s, getTotalConversions (processTask task r s).2
        = getTotalConversions s + (if executeTask r then 1 else 0)) ∧
      (∀ st e, getTotalConversions st.manager
        ≤ getTotalConversions (poolStep st e).manager) := by
  refine ⟨rfl, ?_, processTask_counter, poolStep_counter_le⟩
  rw [(poolInv_run (poolInv_start poolSize) events).counter, List.countP_eq_length_filter]

/-! ## RateLimiter: calls without defined behaviour -/

/-- The function `isAllowedDefined` agrees with `isAllowed` whenever the node of
the key is still in the map after the compaction pass, and is `none`
otherwise. -/
theorem isAllowedDefined_eq (k : String) (now : Int) (m : IpHistory) :
    isAllowedDefined k now m =
      if (mapFind (afterCompaction m k now) k).isSome then some (isAllowed k now m)
      else none := by
  have hread := history_read m k now
  have hdef : isAllowedDefined k now m =
      match mapFind (afterCompaction m k now) k with
      | none => none
      | some history =>
        if (history.timestamps.length : Int) ≥ MAX_REQUESTS_PER_WINDOW then
          some (false, afterCompaction m k now)
        else
          some (true, mapAssign (afterCompaction m k now) k ⟨history.timestamps ++ [now]⟩) := by
    unfold isAllowedDefined afterCompaction trimmedOf
    simp only [mapFind_mapSubscript_self, Option.getD_some]
  rw [hdef]
  cases hf : mapFind (afterCompaction m k now) k with
  | none => simp
  | some h =>
    rw [hf, Option.getD_some] at hread
    subst hread
    simp only [Option.isSome_some, if_true]
    rw [isAllowed_eq]
    split <;> rfl

/-- A call for a key without a node that runs the compaction pass has no
defined behaviour: the pass erases the node the subscript has just created. -/
theorem isAllowedDefined_fresh_of_compacts {m : IpHistory} {k : String} (now : Int)
    (hf : mapFind m k = none) (hc : Compacts m k) :
    mapFind (afterCompaction m k now) k = none ∧ isAllowedDefined k now m = none := by
  have hk : k ∉ keys m := not_mem_keys_of_mapFind_none hf
  have hk' : k ∉ keys (cleanupStaleEntries now m) :=
    fun h => hk ((keys_cleanupStaleEntries_sublist now m).subset h)
  have htr : trimmedOf m k now = ⟨[]⟩ := by
    simp [trimmedOf, histOf, hf, cleanup, popOld]
  have hsub : mapSubscript m k = m ++ [(k, ⟨[]⟩)] := by
    simp [mapSubscript, hf]
  have hone : cleanupStaleEntries now [(k, (⟨[]⟩ : RequestHistory))] = [] := by
    simp [cleanupStaleEntries, cleanup, popOld]
  have hafter : afterCompaction m k now = cleanupStaleEntries now m := by
    rw [afterCompaction_eq, if_pos hc, htr, hsub]
    simp [mapAssign_append, mapAssign_of_not_mem _ hk, mapAssign,
      cleanupStaleEntries_append, hone]
  have hnone : mapFind (afterCompaction m k now) k = none := by
    rw [hafter]
    exact mapFind_eq_none_of_not_mem hk'
  refine ⟨hnone, ?_⟩
  rw [isAllowedDefined_eq, hnone]
  rfl

theorem mapSize_cleanupStaleEntries_le (now : Int) (m : IpHistory) :
    mapSize (cleanupStaleEntries now m) ≤ mapSize m := by
  have := (keys_cleanupStaleEntries_sublist now m).length_le
  simpa [keys, mapSize] using this

theorem mapSubscript_of_mapFind_some {m : IpHistory} {k : String} {h : RequestHistory}
    (hf : mapFind m k = some h) : mapSubscript m k = m := by
  simp [mapSubscript, hf]

/-- A call that runs the compaction pass on a map of at most 1000 keys is a
call for a key without a node. -/
theorem fresh_of_compacts {m : IpHistory} {k : String} (hs : mapSize m ≤ 1000)
    (hc : Compacts m k) : mapFind m k = none := by
  cases hf : mapFind m k with
  | none => rfl
  | some h =>
    unfold Compacts at hc
    rw [mapSubscript_of_mapFind_some hf] at hc
    omega

theorem mapSize_isAllowed_le {m : IpHistory} (hs : mapSize m ≤ 1000) (k : String)
    (now : Int) : mapSize (isAllowed k now m).2 ≤ 1000 := by
  by_cases hc : Compacts m k
  · rw [isAllowed_fresh_of_compacts now (fresh_of_compacts hs hc) hc]
    exact Nat.le_trans (mapSize_cleanupStaleEntries_le now m) hs
  · have hafter : mapSize (afterCompaction m k now) ≤ 1000 := by
      rw [afterCompaction_eq, if_neg hc, mapSize_mapAssign]
      unfold Compacts at hc
      omega
    rw [isAllowed_eq]
    split
    · exact hafter
    · rw [mapSize_mapAssign]
      exact hafter

/-- A reachable limiter never holds more than 1000 keys. -/
theorem mapSize_le_of_reachable {m : IpHistory} {t : Int} (hr : Reachable m t) :
    mapSize m ≤ 1000 := by
  induction hr with
  | init t => exact Nat.zero_le _
  | allowed k now _ _ ih => exact mapSize_isAllowed_le ih k now
  | remaining k now _ _ ih =>
    rw [getRemainingRequests_snd, mapSize_mapAssign]
    exact ih

theorem runCalls_append (calls calls' : List LimiterCall) (m : IpHistory) :
    runCalls (calls ++ calls') m = (runCalls calls m).bind (runCalls calls') := by
  induction calls generalizing m with
  | nil => rfl
  | cons c rest ih =>
    cases c with
    | isAllowed k now =>
      simp only [List.cons_append, runCalls]
      cases isAllowedDefined k now m with
      | none => rfl
      | some r => exact ih r.2
    | getRemainingRequests k now =>
      simp only [List.cons_append, runCalls]
      exact ih _

theorem busyCalls_succ (n : Nat) :
    busyCalls (n + 1) = busyCalls n ++ [.isAllowed (busyKey n) 0] := by
  simp [busyCalls, List.range_succ]

/-- The first 1000 calls all have defined behaviour and build the busy
limiter. -/
theorem runCalls_busyCalls {n : Nat} (hn : n ≤ 1000) :
    runCalls (busyCalls n) [] = some (busyUpTo n) := by
  induction n with
  | zero => rfl
  | succ n ih =>
    have hf : mapFind (busyUpTo n) (busyKey n) = none :=
      mapFind_busyUpTo_none (fun i hi h => by
        have := busyKey_injective h
        omega)
    have hc : ¬ Compacts (busyUpTo n) (busyKey n) := by
      simp only [Compacts, mapSubscript, hf, mapSize, List.length_append, List.length_singleton]
      have := mapSize_busyUpTo n
      simp only [mapSize] at this
      omega
    have hstep := isAllowed_fresh_of_not_compacts 0 hf hc
    have hsome : (mapFind (afterCompaction (busyUpTo n) (busyKey n) 0) (busyKey n)).isSome
        = true := by
      rw [mapFind_afterCompaction_self (uniqueKeys_busyUpTo n)]
      have : ¬ (Compacts (busyUpTo n) (busyKey n) ∧
          (trimmedOf (busyUpTo n) (busyKey n) 0).timestamps.isEmpty = true) :=
        fun h => hc h.1
      rw [if_neg this]
      rfl
    have hdef : isAllowedDefined (busyKey n) 0 (busyUpTo n)
        = some (true, busyUpTo n ++ [(busyKey n, ⟨[0]⟩)]) := by
      rw [isAllowedDefined_eq, if_pos hsome, hstep]
    rw [busyCalls_succ, runCalls_append, ih (by omega)]
    simp only [Option.some_bind, runCalls, hdef]
    rw [busyUpTo_succ]

/-- C1, at the failing input: the busy limiter is reachable, and in the call
`isAllowed("b")` on it at clock reading 1 the compaction pass erases the node of
"b" before the decision, so the size test reads through a dangling reference
and the call has no defined result. -/
theorem decision_reads_erased_node :
    Reachable busyLimiter 0 ∧ Compacts busyLimiter "b" ∧
      mapFind (afterCompaction busyLimiter "b" 1) "b" = none ∧
      isAllowedDefined "b" 1 busyLimiter = none :=
  ⟨reachable_busyLimiter, compacts_busyLimiter_b,
    (isAllowedDefined_fresh_of_compacts 1 mapFind_busyLimiter_b compacts_busyLimiter_b).1,
    (isAllowedDefined_fresh_of_compacts 1 mapFind_busyLimiter_b compacts_busyLimiter_b).2⟩

/-- C5, at the failing input: from the empty limiter, one call for each of 1000
client keys at clock reading 0 has defined behaviour and gives the busy
limiter; one more call, for the key "b" at clock reading 1, writes through a
dangling reference, so this sequence of calls under a non-decreasing clock has
no defined limiter state after it. -/
theorem call_sequence_without_defined_state :
    runCalls (busyCalls 1000) [] = some busyLimiter ∧
      runCalls (busyCalls 1000 ++ [.isAllowed "b" 1]) [] = none := by
  have h := runCalls_busyCalls (le_refl 1000)
  refine ⟨h, ?_⟩
  rw [runCalls_append, h]
  have hb : isAllowedDefined "b" 1 (busyUpTo 1000) = none :=
    (isAllowedDefined_fresh_of_compacts 1 mapFind_busyLimiter_b compacts_busyLimiter_b).2
  simp only [Option.some_bind, runCalls, hb]

/-- C19, the failing calls: in every limiter state reachable from the empty
limiter, a call `isAllowed(k)` that triggers the compaction pass is a call for a
key without a node; the pass erases the node the call has just created, and the
call then writes through the dangling reference, so it has no defined
behaviour and leaves no defined state for another key to observe. -/
theorem compaction_call_undefined {m : IpHistory} {t : Int} (hr : Reachable m t)
    (k : String) (now : Int) (hc : Compacts m k) :
    mapFind m k = none ∧ mapFind (afterCompaction m k now) k = none ∧
      isAllowedDefined k now m = none := by
  have hf := fresh_of_compacts (mapSize_le_of_reachable hr) hc
  exact ⟨hf, isAllowedDefined_fresh_of_compacts now hf hc⟩

/-- Witness of C19: the busy limiter, the key "b", and another key that has a
node in it. -/
theorem compaction_call_undefined_witness :
    Reachable busyLimiter 0 ∧ Compacts busyLimiter "b" ∧
      (mapFind busyLimiter "b" = none ∧
        mapFind (afterCompaction busyLimiter "b" 1) "b" = none ∧
        isAllowedDefined "b" 1 busyLimiter = none) :=
  ⟨reachable_busyLimiter, compacts_busyLimiter_b,
    compaction_call_undefined reachable_busyLimiter "b" 1 compacts_busyLimiter_b⟩

end Konvertor
